import Mathlib

/-!
Verification of the data-packaging pipeline `_data_packager`
(`jtb_2023_code/package_data.py`) against its specification.

The pipeline assembles a multi-layer annotated matrix (an AnnData-like
"LayerStore") from a base counts object and per-experiment decay/velocity and
denoised products, derives transcription layers, filters to the wild-type
cohort and trims unexpressed features.

Numeric cells are modelled by `FV`: either an explicit rational value or the
IEEE not-a-number marker, with addition and multiplication propagating
not-a-number exactly as IEEE arithmetic does on finite floats.
-/

set_option autoImplicit false

namespace JTB

/-- A matrix cell: a finite numeric value (modelled as an exact rational) or
the not-a-number marker produced by `np.full(..., np.nan)` fills. -/
inductive FV where
  | nan : FV
  | val : ℚ → FV
deriving DecidableEq, Repr

/-- IEEE-style addition on cells: not-a-number absorbs. -/
def FV.add : FV → FV → FV
  | FV.val a, FV.val b => FV.val (a + b)
  | _, _ => FV.nan

/-- IEEE-style multiplication on cells: not-a-number absorbs. -/
def FV.mul : FV → FV → FV
  | FV.val a, FV.val b => FV.val (a * b)
  | _, _ => FV.nan

/-- IEEE-style subtraction on cells: not-a-number absorbs. -/
def FV.sub : FV → FV → FV
  | FV.val a, FV.val b => FV.val (a - b)
  | _, _ => FV.nan

/-- Is this cell the not-a-number marker? -/
def FV.isNaN : FV → Bool
  | FV.nan => true
  | FV.val _ => false

/-- `numpy` sum of a list of cells (not-a-number propagates through the sum). -/
def FV.sum (l : List FV) : FV := l.foldr FV.add (FV.val 0)

/-- `numpy` comparison `x >= q`: false whenever `x` is not-a-number. -/
def fvGE (x : FV) (q : ℚ) : Bool :=
  match x with
  | FV.val a => decide (q ≤ a)
  | FV.nan => false

/-- A cell holding a nonnegative finite value, as every raw count does. -/
def isNNVal (x : FV) : Bool :=
  match x with
  | FV.val a => decide (0 ≤ a)
  | FV.nan => false

/-- `numpy` comparison `x > q`: false whenever `x` is not-a-number. -/
def fvGT (x : FV) (q : ℚ) : Bool :=
  match x with
  | FV.val a => decide (q < a)
  | FV.nan => false

/-- A dense 2-D matrix, stored row-major. -/
abbrev Mat := List (List FV)

/-- Row `r` of a matrix (empty row when out of range). -/
def getRow (m : Mat) (r : ℕ) : List FV := m.getD r []

/-- Cell `(r, c)` of a matrix (not-a-number when out of range). -/
def mget (m : Mat) (r c : ℕ) : FV := (m.getD r []).getD c FV.nan

/-- Number of rows, as `numpy`'s `shape[0]`. -/
def nrows (m : Mat) : ℕ := m.length

/-- Number of columns, as `numpy`'s `shape[1]` of a rectangular array. -/
def ncols (m : Mat) : ℕ := (m.headD []).length

/-- `m` is a rectangular `n × M` matrix. -/
def matDims (m : Mat) (n M : ℕ) : Prop :=
  m.length = n ∧ ∀ row ∈ m, row.length = M

/-- `np.full((n, M), np.nan)`. -/
def mkFull (n M : ℕ) : Mat := List.replicate n (List.replicate M FV.nan)

/-- Number of `true` entries of a boolean mask. -/
def countTrue : List Bool → ℕ
  | [] => 0
  | true :: t => countTrue t + 1
  | false :: t => countTrue t

/-- Boolean-mask selection (`xs[mask]` in numpy / pandas). -/
def maskFilter {α : Type} : List Bool → List α → List α
  | true :: ks, x :: xs => x :: maskFilter ks xs
  | false :: ks, _ :: xs => maskFilter ks xs
  | _, _ => []

/-- Index into the original list of the `c`-th selected element of
`maskFilter keep`. -/
def trueIdx : List Bool → ℕ → ℕ
  | true :: _, 0 => 0
  | true :: ks, c + 1 => trueIdx ks c + 1
  | false :: ks, c => trueIdx ks c + 1
  | [], _ => 0

/-- Positional case of `numpy` boolean-mask row assignment: the rows of the
source are written, in order, into the `true` positions of the mask; fails
when the mask length does not match the target row count or the source runs
out against the selected rows. -/
def maskedAssignRows : List Bool → Mat → Mat → Option Mat
  | [], [], [] => some []
  | true :: ms, _ :: ts, s :: ss =>
    (maskedAssignRows ms ts ss).map (fun u => s :: u)
  | false :: ms, t :: ts, ss =>
    (maskedAssignRows ms ts ss).map (fun u => t :: u)
  | _, _, _ => none

/-- Broadcast case of `numpy` boolean-mask row assignment: the single source
row is written into every `true` position of the mask; fails when the mask
length does not match the target row count. -/
def broadcastRow : List Bool → Mat → List FV → Option Mat
  | [], [], _ => some []
  | true :: ms, _ :: ts, s => (broadcastRow ms ts s).map (fun u => s :: u)
  | false :: ms, t :: ts, s => (broadcastRow ms ts s).map (fun u => t :: u)
  | _, _, _ => none

/-- `numpy` boolean-mask row assignment `target[mask, :] = src`: when the
source row count equals the number of selected rows the source rows are
written positionally; otherwise a single-row source is silently broadcast
into every selected row; any other row-count mismatch raises (as does a mask
whose length differs from the target row count). -/
def maskedAssign (ms : List Bool) (ts ss : Mat) : Option Mat :=
  if ss.length = countTrue ms then maskedAssignRows ms ts ss
  else
    match ss with
    | [s] => broadcastRow ms ts s
    | _ => none

/-- Element-wise combination of two matrices (numpy broadcasting is not needed
here: the pipeline only combines equal-shaped layers). -/
def zipWith2D (f : FV → FV → FV) (a b : Mat) : Mat :=
  List.zipWith (List.zipWith f) a b

/-- `X.sum(axis=0)` of a matrix with `M` columns. -/
def colSums (M : ℕ) (m : Mat) : List FV :=
  m.foldr (List.zipWith FV.add) (List.replicate M (FV.val 0))

/-! ## The data model of the pipeline -/

/-- The per-observation metadata table (`obs` of the AnnData object):
observation identifiers (`obs_names`), the categorical `Gene` column used by
the wild-type cohort filter, and the remaining numeric columns (pseudotime,
embeddings, ...) as a name-keyed column list. -/
structure ObsTable where
  names : List String
  gene : List String
  numCols : List (String × List ℚ)
deriving DecidableEq, Repr

/-- Replace-or-add a named numeric column, as pandas column assignment
`obs[name] = vals` does. -/
def setCol (t : ObsTable) (name : String) (vals : List ℚ) : ObsTable :=
  { t with numCols := (t.numCols.filter (fun p => !(p.1 == name))) ++ [(name, vals)] }

/-- The source object `data.all_data` (`_all`), restricted to the fields that
`_data_packager` reads: the `counts` and `decay_constants` layers, `obs`, the
identifying `var` columns (only feature identity matters here), the first two
components of the `X_umap` and `X_pca` embeddings, and the
`uns["programs"]` attribute map entries. -/
structure AllData where
  counts : Mat
  decay_constants : Mat
  obs : ObsTable
  var : List String
  umap1 : List ℚ
  umap2 : List ℚ
  pca1 : List ℚ
  pca2 : List ℚ
  rapa_program : String
  cell_cycle_program : String
deriving DecidableEq, Repr

/-- The output store `inf_data` with its primary matrix `X`, metadata, and the
named layers the pipeline creates.  Layers that a given pipeline stage has not
created yet hold the empty matrix `[]`. -/
structure InfData where
  X : Mat
  obs : ObsTable
  var : List String
  counts : Mat
  decay_constants : Mat
  rapamycin_velocity : Mat
  cell_cycle_velocity : Mat
  denoised : Mat
  rapamycin_transcription : Mat
  cell_cycle_transcription : Mat
deriving DecidableEq, Repr

/-- The decay product `data.decay_data(*k)` of one experiment: observation
identifiers plus the velocity layers read by the merge loop and the decay
constants the product also carries. -/
structure ExptProduct where
  obs_names : List String
  rapamycin_velocity : Mat
  cell_cycle_velocity : Mat
  decay_constants : Mat
deriving DecidableEq, Repr

/-- The denoised product `data.denoised_data(*k)` of one experiment: its
observation identifiers and denoised expression matrix.  The merge loop reads
only `X`. -/
structure DenoisedProduct where
  obs_names : List String
  X : Mat
deriving DecidableEq, Repr

/-- Failure modes of the pipeline (spec §7 taxonomy). -/
inductive Err where
  | ShapeMismatch : Err
  | MissingExperimentData : Err
  | UndefinedColumnReference : Err
deriving DecidableEq, Repr

/-! ## The pipeline steps of `_data_packager` -/

/-- The obs table after source lines 54–55: the source's `obs` with the first
two UMAP and PCA embedding components written into named columns. -/
def step1Obs (a : AllData) : ObsTable :=
  setCol (setCol (setCol (setCol a.obs "UMAP_1" a.umap1)
    "UMAP_2" a.umap2) "PCA_1" a.pca1) "PCA_2" a.pca2

/-- Step 1 (source lines 45–63): build `inf_data` from the counts layer, carry
`obs`/`var`, copy the `decay_constants` layer, write the first two UMAP/PCA
components into `obs` columns, and copy the two pseudotime columns whose
source names are resolved through the `uns["programs"]` attribute map
(`program_<X>_time`).  A missing resolved column is a fatal failure, the
spec's `UndefinedColumnReference` (pandas raises a key error there). -/
def step1 (a : AllData) : Except Err InfData :=
  match (step1Obs a).numCols.lookup ("program_" ++ a.rapa_program ++ "_time") with
  | none => Except.error Err.UndefinedColumnReference
  | some rapaCol =>
    match (step1Obs a).numCols.lookup
      ("program_" ++ a.cell_cycle_program ++ "_time") with
    | none => Except.error Err.UndefinedColumnReference
    | some ccCol =>
      Except.ok
        { X := a.counts
          obs := setCol (setCol (step1Obs a) "program_rapa_time" rapaCol)
            "program_cc_time" ccCol
          var := a.var
          counts := []
          decay_constants := a.decay_constants
          rapamycin_velocity := []
          cell_cycle_velocity := []
          denoised := []
          rapamycin_transcription := []
          cell_cycle_transcription := [] }

/-- Boolean-mask row subsetting of the whole store (`inf_data[mask, :]`,
also scanpy's in-place observation subsetting): the primary matrix, every
layer and every `obs` column are filtered by the same mask. -/
def filterRows (keep : List Bool) (d : InfData) : InfData :=
  { X := maskFilter keep d.X
    obs :=
      { names := maskFilter keep d.obs.names
        gene := maskFilter keep d.obs.gene
        numCols := d.obs.numCols.map (fun p => (p.1, maskFilter keep p.2)) }
    var := d.var
    counts := maskFilter keep d.counts
    decay_constants := maskFilter keep d.decay_constants
    rapamycin_velocity := maskFilter keep d.rapamycin_velocity
    cell_cycle_velocity := maskFilter keep d.cell_cycle_velocity
    denoised := maskFilter keep d.denoised
    rapamycin_transcription := maskFilter keep d.rapamycin_transcription
    cell_cycle_transcription := maskFilter keep d.cell_cycle_transcription }

/-- One row of the total-count normalization: a row with total `t ≠ 0` is
rescaled by `after / t`; a row with zero total is left as-is; a row whose
total is not-a-number is degraded to not-a-number (numpy division). -/
def normRow (after : ℚ) (row : List FV) : List FV :=
  match FV.sum row with
  | FV.val t => if t = 0 then row else row.map (FV.mul (FV.val (after / t)))
  | FV.nan => row.map (fun _ => FV.nan)

/-- Modelled from the spec: `sc.pp.normalize_per_cell` is scanpy library code,
external to this repository.  Per the spec (§4.3 Step 3) it applies a
row-wise total-count normalization to the primary matrix in place — each row
rescaled to be proportional to its per-cell total against a fixed target —
with zero-total rows left as-is; per the library's documented `min_counts`
interface, observations whose total is below `min_counts` are first filtered
out of the whole store. -/
def normalize_per_cell (minCounts : ℚ) (after : ℚ) (d : InfData) : InfData :=
  let keep := d.X.map (fun row => fvGE (FV.sum row) minCounts)
  let d1 := filterRows keep d
  { d1 with X := d1.X.map (normRow after) }

/-- Step 3 (source lines 70–86): snapshot `X` into the `counts` layer (the
`astype(np.float32)` conversion is value-preserving in this exact-rational
model), normalize per cell with `min_counts=0`, and initialize the
`rapamycin_velocity`, `cell_cycle_velocity` and `denoised` layers to
all-not-a-number fills of `X`'s shape. -/
def step3 (after : ℚ) (d : InfData) : InfData :=
  let d1 := { d with counts := d.X }
  let d2 := normalize_per_cell 0 after d1
  let n := nrows d2.X
  let M := ncols d2.X
  { d2 with
      rapamycin_velocity := mkFull n M
      cell_cycle_velocity := mkFull n M
      denoised := mkFull n M }

/-- The row mask `_expt_idx = inf_data.obs_names.isin(dd.obs_names)` (source
line 90), computed from the decay product's observation identifiers. -/
def exptMask (d : InfData) (dd : ExptProduct) : List Bool :=
  d.obs.names.map (fun nm => dd.obs_names.contains nm)

/-- The body of the Step 4 merge loop (source lines 88–104): compute the row
mask from the decay product's identifiers, then mask-assign the denoised
product's matrix and the decay product's two velocity layers into the
corresponding output layers. -/
def mergeExperiment (d : InfData) (dd : ExptProduct) (dn : DenoisedProduct) :
    Option InfData :=
  match maskedAssign (exptMask d dd) d.denoised dn.X with
  | none => none
  | some den =>
    match maskedAssign (exptMask d dd) d.rapamycin_velocity dd.rapamycin_velocity with
    | none => none
    | some rv =>
      match maskedAssign (exptMask d dd) d.cell_cycle_velocity dd.cell_cycle_velocity with
      | none => none
      | some cc =>
        some { d with denoised := den, rapamycin_velocity := rv,
                      cell_cycle_velocity := cc }

/-- Step 4: the merge loop over `data.expts`, each experiment contributing its
decay product and denoised product. -/
def step4 : List (ExptProduct × DenoisedProduct) → InfData → Option InfData
  | [], d => some d
  | e :: rest, d =>
    match mergeExperiment d e.1 e.2 with
    | none => none
    | some d1 => step4 rest d1

/-- Step 5 (source lines 106–113): retain only rows whose `Gene` label is the
wild-type sentinel `"WT"`. -/
def step5 (d : InfData) : InfData :=
  filterRows (d.obs.gene.map (fun g => g = "WT")) d

/-- Step 6 (source lines 131–145): derive the two transcription layers as
`velocity + decay_constants * denoised`, element-wise. -/
def step6 (d : InfData) : InfData :=
  let prod := zipWith2D FV.mul d.decay_constants d.denoised
  { d with
      rapamycin_transcription := zipWith2D FV.add d.rapamycin_velocity prod
      cell_cycle_transcription := zipWith2D FV.add d.cell_cycle_velocity prod }

/-- Boolean-mask column subsetting of the whole store (`inf_data[:, mask]`):
every layer's rows and the `var` table are filtered by the same mask. -/
def filterCols (keep : List Bool) (d : InfData) : InfData :=
  { d with
      X := d.X.map (maskFilter keep)
      var := maskFilter keep d.var
      counts := d.counts.map (maskFilter keep)
      decay_constants := d.decay_constants.map (maskFilter keep)
      rapamycin_velocity := d.rapamycin_velocity.map (maskFilter keep)
      cell_cycle_velocity := d.cell_cycle_velocity.map (maskFilter keep)
      denoised := d.denoised.map (maskFilter keep)
      rapamycin_transcription := d.rapamycin_transcription.map (maskFilter keep)
      cell_cycle_transcription := d.cell_cycle_transcription.map (maskFilter keep) }

/-- Step 7 (source lines 156–160): `_has_expression = X.sum(axis=0) > 0`;
when not all features pass, subset the store to the passing columns. -/
def step7 (d : InfData) : InfData :=
  let keep := (colSums (ncols d.X) d.X).map (fun s => fvGT s 0)
  if keep.all (fun b => b) then d else filterCols keep d

/-- The whole `_data_packager` pipeline on the loaded inputs: Step 1 base
construction, Step 3 layer setup, the Step 4 merge loop, the Step 5 cohort
filter, Step 6 transcription derivation and the Step 7 feature trim.  A
failed mask assignment in the loop surfaces as the spec's `ShapeMismatch`. -/
def package (a : AllData) (expts : List (ExptProduct × DenoisedProduct))
    (after : ℚ) : Except Err InfData :=
  match step1 a with
  | Except.error e => Except.error e
  | Except.ok d1 =>
    match step4 expts (step3 after d1) with
    | none => Except.error Err.ShapeMismatch
    | some d4 => Except.ok (step7 (step6 (step5 d4)))

/-! ## Small concrete stores used to instantiate the theorems -/

/-- A two-observation, one-feature store with fresh not-a-number layers, as
Step 4 receives it. -/
def cD : InfData :=
  { X := [[FV.val 1], [FV.val 1]]
    obs := { names := ["a", "b"], gene := ["WT", "WT"], numCols := [] }
    var := ["g"]
    counts := [[FV.val 1], [FV.val 1]]
    decay_constants := [[FV.val 9], [FV.val 9]]
    rapamycin_velocity := mkFull 2 1
    cell_cycle_velocity := mkFull 2 1
    denoised := mkFull 2 1
    rapamycin_transcription := []
    cell_cycle_transcription := [] }

/-- A decay product covering only observation `"a"`. -/
def cDD : ExptProduct :=
  { obs_names := ["a"]
    rapamycin_velocity := [[FV.val 2]]
    cell_cycle_velocity := [[FV.val 3]]
    decay_constants := [[FV.val 7]] }

/-- The matching denoised product. -/
def cDN : DenoisedProduct := { obs_names := ["a"], X := [[FV.val 4]] }

/-- A denoised product whose row count does not match the mask. -/
def cDNbig : DenoisedProduct :=
  { obs_names := ["a"], X := [[FV.val 4], [FV.val 5]] }

/-- The result of merging `(cDD, cDN)` into `cD`. -/
def cD1 : InfData :=
  { cD with
      denoised := [[FV.val 4], [FV.nan]]
      rapamycin_velocity := [[FV.val 2], [FV.nan]]
      cell_cycle_velocity := [[FV.val 3], [FV.nan]] }

/-- A decay product covering both observations of `cD`. -/
def cDDbc : ExptProduct :=
  { obs_names := ["a", "b"]
    rapamycin_velocity := [[FV.val 2], [FV.val 2]]
    cell_cycle_velocity := [[FV.val 3], [FV.val 3]]
    decay_constants := [[FV.val 7], [FV.val 7]] }

/-- A denoised product with a single row, although the decay product's mask
selects two rows — numpy's silent-broadcast corner. -/
def cDNone : DenoisedProduct := { obs_names := ["a"], X := [[FV.val 4]] }

/-- The result of merging `(cDDbc, cDNone)` into `cD`: the single denoised
row is broadcast into both selected rows. -/
def cDbc1 : InfData :=
  { cD with
      denoised := [[FV.val 4], [FV.val 4]]
      rapamycin_velocity := [[FV.val 2], [FV.val 2]]
      cell_cycle_velocity := [[FV.val 3], [FV.val 3]] }

/-- The source object used to instantiate base-construction theorems. -/
def cAll : AllData :=
  { counts := [[FV.val 1]]
    decay_constants := [[FV.val 6]]
    obs := { names := ["a"], gene := ["WT"],
             numCols := [("program_0_time", [1]), ("program_1_time", [2])] }
    var := ["g"]
    umap1 := [0], umap2 := [0], pca1 := [0], pca2 := [0]
    rapa_program := "0", cell_cycle_program := "1" }

/-- The store Step 1 builds from `cAll`. -/
def cS1 : InfData :=
  { X := [[FV.val 1]]
    obs := { names := ["a"], gene := ["WT"],
             numCols := [("program_0_time", [1]), ("program_1_time", [2]),
                         ("UMAP_1", [0]), ("UMAP_2", [0]),
                         ("PCA_1", [0]), ("PCA_2", [0]),
                         ("program_rapa_time", [1]), ("program_cc_time", [2])] }
    var := ["g"]
    counts := []
    decay_constants := [[FV.val 6]]
    rapamycin_velocity := []
    cell_cycle_velocity := []
    denoised := []
    rapamycin_transcription := []
    cell_cycle_transcription := [] }

/-- A source object whose attribute map names a program id with no matching
pseudotime column. -/
def cAllBad : AllData := { cAll with rapa_program := "9" }

/-- A store whose first row has zero total, for the normalization theorems. -/
def cDz : InfData :=
  { X := [[FV.val 0], [FV.val 2]]
    obs := { names := ["a", "b"], gene := ["WT", "WT"], numCols := [] }
    var := ["g"]
    counts := [[FV.val 0], [FV.val 2]]
    decay_constants := [[FV.val 1], [FV.val 1]]
    rapamycin_velocity := []
    cell_cycle_velocity := []
    denoised := []
    rapamycin_transcription := []
    cell_cycle_transcription := [] }

/-! ## Shape predicates and the transcription relation -/

/-- All per-observation tables have `n` rows. -/
def obsLen (t : ObsTable) (n : ℕ) : Prop :=
  t.names.length = n ∧ t.gene.length = n ∧ ∀ p ∈ t.numCols, p.2.length = n

/-- The store's primary matrix is `n × M`, obs is row-aligned and var has
`M` rows. -/
def shapeBase (d : InfData) (n M : ℕ) : Prop :=
  matDims d.X n M ∧ obsLen d.obs n ∧ d.var.length = M

/-- Shape invariant after Step 1: base plus the `decay_constants` layer. -/
def shape1 (d : InfData) (n M : ℕ) : Prop :=
  shapeBase d n M ∧ matDims d.decay_constants n M

/-- Shape invariant after Steps 3–5: Step 1's layers plus `counts` and the
three per-experiment layers. -/
def shape3 (d : InfData) (n M : ℕ) : Prop :=
  shape1 d n M ∧ matDims d.counts n M ∧ matDims d.rapamycin_velocity n M ∧
  matDims d.cell_cycle_velocity n M ∧ matDims d.denoised n M

/-- Shape invariant after Steps 6–7: all layers, transcription included. -/
def shape6 (d : InfData) (n M : ℕ) : Prop :=
  shape3 d n M ∧ matDims d.rapamycin_transcription n M ∧
  matDims d.cell_cycle_transcription n M

/-- Well-formedness of the source object's fields. -/
def allShape (a : AllData) (n M : ℕ) : Prop :=
  matDims a.counts n M ∧ matDims a.decay_constants n M ∧ obsLen a.obs n ∧
  a.var.length = M ∧ a.umap1.length = n ∧ a.umap2.length = n ∧
  a.pca1.length = n ∧ a.pca2.length = n

/-- The per-experiment products carry `M`-wide rows. -/
def exptShape (M : ℕ) (e : ExptProduct × DenoisedProduct) : Prop :=
  (∀ row ∈ e.1.rapamycin_velocity, row.length = M) ∧
  (∀ row ∈ e.1.cell_cycle_velocity, row.length = M) ∧
  (∀ row ∈ e.2.X, row.length = M)

/-- The pointwise transcription relation `T = V + K * D` between four
equally-indexed layers. -/
def transRel (T V K D : Mat) : Prop :=
  ∀ r c, mget T r c = FV.add (mget V r c) (FV.mul (mget K r c) (mget D r c))

/-! ## An end-to-end concrete run -/

/-- A one-observation, one-feature source object. -/
def eAll : AllData :=
  { counts := [[FV.val 2]]
    decay_constants := [[FV.val 3]]
    obs := { names := ["a"], gene := ["WT"],
             numCols := [("program_0_time", [1]), ("program_1_time", [2])] }
    var := ["g"]
    umap1 := [0], umap2 := [0], pca1 := [0], pca2 := [0]
    rapa_program := "0", cell_cycle_program := "1" }

/-- Its single experiment's decay product. -/
def eDD : ExptProduct :=
  { obs_names := ["a"], rapamycin_velocity := [[FV.val 5]]
    cell_cycle_velocity := [[FV.val 7]], decay_constants := [[FV.val 3]] }

/-- Its single experiment's denoised product. -/
def eDN : DenoisedProduct := { obs_names := ["a"], X := [[FV.val 11]] }

/-- The store after Step 1 of the end-to-end run. -/
def eS1 : InfData :=
  { X := [[FV.val 2]]
    obs := { names := ["a"], gene := ["WT"],
             numCols := [("program_0_time", [1]), ("program_1_time", [2]),
                         ("UMAP_1", [0]), ("UMAP_2", [0]),
                         ("PCA_1", [0]), ("PCA_2", [0]),
                         ("program_rapa_time", [1]), ("program_cc_time", [2])] }
    var := ["g"]
    counts := []
    decay_constants := [[FV.val 3]]
    rapamycin_velocity := []
    cell_cycle_velocity := []
    denoised := []
    rapamycin_transcription := []
    cell_cycle_transcription := [] }

/-- The store after Step 3 (normalization target 2 keeps `X` at its counts). -/
def eS3 : InfData :=
  { eS1 with
      counts := [[FV.val 2]]
      X := [[FV.val 2]]
      rapamycin_velocity := [[FV.nan]]
      cell_cycle_velocity := [[FV.nan]]
      denoised := [[FV.nan]] }

/-- The store after the Step 4 merge (and the Step 5 cohort filter, which
keeps its single wild-type row). -/
def eD4 : InfData :=
  { eS3 with
      denoised := [[FV.val 11]]
      rapamycin_velocity := [[FV.val 5]]
      cell_cycle_velocity := [[FV.val 7]] }

/-- The final store of the end-to-end run (Step 6 transcription layers; the
Step 7 trim keeps the expressed single feature). -/
def eFinal : InfData :=
  { eD4 with
      rapamycin_transcription := [[FV.val 38]]
      cell_cycle_transcription := [[FV.val 40]] }

/-! ## Basic lemmas about masks and mask selection -/

theorem maskFilter_nil_keep {α : Type} (xs : List α) :
    maskFilter [] xs = [] := by
  cases xs <;> rfl

theorem maskFilter_nil {α : Type} (keep : List Bool) :
    maskFilter keep ([] : List α) = [] := by
  cases keep with
  | nil => rfl
  | cons b ks => cases b <;> rfl

theorem maskFilter_cons_true {α : Type} (ks : List Bool) (x : α) (xs : List α) :
    maskFilter (true :: ks) (x :: xs) = x :: maskFilter ks xs := rfl

theorem maskFilter_cons_false {α : Type} (ks : List Bool) (x : α) (xs : List α) :
    maskFilter (false :: ks) (x :: xs) = maskFilter ks xs := rfl

theorem trueIdx_nil (c : ℕ) : trueIdx [] c = 0 := rfl

theorem trueIdx_cons_true_zero (ks : List Bool) : trueIdx (true :: ks) 0 = 0 := rfl

theorem trueIdx_cons_true_succ (ks : List Bool) (c : ℕ) :
    trueIdx (true :: ks) (c + 1) = trueIdx ks c + 1 := rfl

theorem trueIdx_cons_false (ks : List Bool) (c : ℕ) :
    trueIdx (false :: ks) c = trueIdx ks c + 1 := by
  cases c <;> rfl

theorem countTrue_true (ks : List Bool) :
    countTrue (true :: ks) = countTrue ks + 1 := rfl

theorem countTrue_false (ks : List Bool) :
    countTrue (false :: ks) = countTrue ks := rfl

/-- Counting `true` after mapping a predicate is the length of the filter. -/
theorem countTrue_map (p : String → Bool) :
    ∀ l : List String, countTrue (l.map p) = (l.filter p).length := by
  intro l
  induction l with
  | nil => rfl
  | cons x xs ih =>
    by_cases h : p x = true
    · simp [List.filter_cons, h, countTrue_true, ih]
    · simp only [Bool.not_eq_true] at h
      simp [List.filter_cons, h, countTrue_false, ih]

theorem maskFilter_length {α : Type} :
    ∀ (keep : List Bool) (xs : List α), xs.length = keep.length →
      (maskFilter keep xs).length = countTrue keep := by
  intro keep
  induction keep with
  | nil => intro xs h; simp [maskFilter_nil_keep, countTrue]
  | cons b ks ih =>
    intro xs h
    cases xs with
    | nil => simp at h
    | cons x xs =>
      simp only [List.length_cons, Nat.add_right_cancel_iff] at h
      cases b with
      | true => simp [maskFilter_cons_true, countTrue_true, ih xs h]
      | false => simp [maskFilter_cons_false, countTrue_false, ih xs h]

theorem maskFilter_mem {α : Type} :
    ∀ (keep : List Bool) (xs : List α) (y : α), y ∈ maskFilter keep xs → y ∈ xs := by
  intro keep
  induction keep with
  | nil => intro xs y h; rw [maskFilter_nil_keep] at h; simp at h
  | cons b ks ih =>
    intro xs y h
    cases xs with
    | nil => rw [maskFilter_nil] at h; simp at h
    | cons x xs =>
      cases b with
      | true =>
        rw [maskFilter_cons_true] at h
        rcases List.mem_cons.mp h with h | h
        · exact h ▸ List.mem_cons_self x xs
        · exact List.mem_cons_of_mem x (ih xs y h)
      | false =>
        rw [maskFilter_cons_false] at h
        exact List.mem_cons_of_mem x (ih xs y h)

/-- All-true masks (of sufficient length) select everything. -/
theorem maskFilter_all_true {α : Type} :
    ∀ (keep : List Bool) (xs : List α), (∀ b ∈ keep, b = true) →
      xs.length ≤ keep.length → maskFilter keep xs = xs := by
  intro keep
  induction keep with
  | nil =>
    intro xs _ hlen
    rw [maskFilter_nil_keep]
    cases xs with
    | nil => rfl
    | cons x xs => simp at hlen
  | cons b ks ih =>
    intro xs hall hlen
    cases xs with
    | nil => exact maskFilter_nil _
    | cons x xs =>
      have hb : b = true := hall b (List.mem_cons_self _ _)
      subst hb
      rw [maskFilter_cons_true]
      simp only [List.length_cons, Nat.add_le_add_iff_right] at hlen
      rw [ih xs (fun b hb => hall b (List.mem_cons_of_mem _ hb)) hlen]

/-- Selecting with the mask `xs.map p` yields only elements satisfying `p`. -/
theorem maskFilter_map_pred {α : Type} (p : α → Bool) :
    ∀ (xs : List α) (y : α), y ∈ maskFilter (xs.map p) xs → p y = true := by
  intro xs
  induction xs with
  | nil => intro y h; rw [maskFilter_nil] at h; simp at h
  | cons x xs ih =>
    intro y h
    simp only [List.map_cons] at h
    by_cases hx : p x = true
    · rw [hx, maskFilter_cons_true] at h
      rcases List.mem_cons.mp h with h | h
      · exact h ▸ hx
      · exact ih y h
    · simp only [Bool.not_eq_true] at hx
      rw [hx, maskFilter_cons_false] at h
      exact ih y h

/-- Mask selection via `trueIdx`: the `c`-th selected element is the
`trueIdx keep c`-th original element (defaults agree when either side runs
out, provided the mask is at least as long as the list). -/
theorem maskFilter_getD {α : Type} (dflt : α) :
    ∀ (keep : List Bool) (xs : List α), xs.length ≤ keep.length →
      ∀ c, (maskFilter keep xs).getD c dflt = xs.getD (trueIdx keep c) dflt := by
  intro keep
  induction keep with
  | nil =>
    intro xs hlen c
    rw [maskFilter_nil_keep, trueIdx_nil]
    cases xs with
    | nil => rfl
    | cons x xs => simp at hlen
  | cons b ks ih =>
    intro xs hlen c
    cases xs with
    | nil => rw [maskFilter_nil]; simp
    | cons x xs =>
      simp only [List.length_cons, Nat.add_le_add_iff_right] at hlen
      cases b with
      | true =>
        rw [maskFilter_cons_true]
        cases c with
        | zero => rw [trueIdx_cons_true_zero]; rfl
        | succ c =>
          rw [trueIdx_cons_true_succ]
          simp only [List.getD_cons_succ]
          exact ih xs hlen c
      | false =>
        rw [maskFilter_cons_false, trueIdx_cons_false]
        simp only [List.getD_cons_succ]
        exact ih xs hlen c

/-- Mask selection commutes with `zipWith`. -/
theorem maskFilter_zipWith {α β γ : Type} (f : α → β → γ) :
    ∀ (keep : List Bool) (xs : List α) (ys : List β),
      maskFilter keep (List.zipWith f xs ys) =
        List.zipWith f (maskFilter keep xs) (maskFilter keep ys) := by
  intro keep
  induction keep with
  | nil => intro xs ys; simp [maskFilter_nil_keep]
  | cons b ks ih =>
    intro xs ys
    cases xs with
    | nil => simp [maskFilter_nil]
    | cons x xs =>
      cases ys with
      | nil =>
        rw [List.zipWith_nil_right, maskFilter_nil, maskFilter_nil,
          List.zipWith_nil_right]
      | cons y ys =>
        cases b with
        | true => simp [List.zipWith_cons_cons, maskFilter_cons_true, ih]
        | false => simp [List.zipWith_cons_cons, maskFilter_cons_false, ih]

/-- Mask selection of a constant list of the mask's length. -/
theorem maskFilter_replicate {α : Type} (a : α) :
    ∀ keep : List Bool,
      maskFilter keep (List.replicate keep.length a) =
        List.replicate (countTrue keep) a := by
  intro keep
  induction keep with
  | nil => rfl
  | cons b ks ih =>
    cases b with
    | true =>
      simp only [List.length_cons, List.replicate_succ, maskFilter_cons_true,
        countTrue_true]
      simp [ih, List.replicate_succ]
    | false =>
      simp only [List.length_cons, List.replicate_succ, maskFilter_cons_false,
        countTrue_false]
      simp [ih]

/-! ## Lemmas about numpy boolean-mask row assignment -/

theorem maskedAssignRows_nil_nil_nil : maskedAssignRows [] [] [] = some [] := rfl

theorem maskedAssignRows_nil_nil_cons (s : List FV) (ss : Mat) :
    maskedAssignRows [] [] (s :: ss) = none := rfl

theorem maskedAssignRows_nil_cons (t : List FV) (ts ss : Mat) :
    maskedAssignRows [] (t :: ts) ss = none := by
  cases ss <;> rfl

theorem maskedAssignRows_cons_nil (b : Bool) (ms : List Bool) (ss : Mat) :
    maskedAssignRows (b :: ms) [] ss = none := by
  cases b <;> cases ss <;> rfl

theorem maskedAssignRows_true_nil (ms : List Bool) (t : List FV) (ts : Mat) :
    maskedAssignRows (true :: ms) (t :: ts) [] = none := rfl

theorem maskedAssignRows_true_cons (ms : List Bool) (t : List FV) (ts : Mat)
    (s : List FV) (ss : Mat) :
    maskedAssignRows (true :: ms) (t :: ts) (s :: ss) =
      (maskedAssignRows ms ts ss).map (fun u => s :: u) := rfl

theorem maskedAssignRows_false_cons (ms : List Bool) (t : List FV)
    (ts ss : Mat) :
    maskedAssignRows (false :: ms) (t :: ts) ss =
      (maskedAssignRows ms ts ss).map (fun u => t :: u) := rfl

/-- A successful positional assignment forces the numpy shape conditions:
the mask matches the target's row count and the source's row count is the
number of selected rows; the result keeps the target's row count. -/
theorem maskedAssignRows_some :
    ∀ (ms : List Bool) (ts ss u : Mat), maskedAssignRows ms ts ss = some u →
      u.length = ts.length ∧ ms.length = ts.length ∧
        ss.length = countTrue ms := by
  intro ms
  induction ms with
  | nil =>
    intro ts ss u h
    cases ts with
    | cons t ts => rw [maskedAssignRows_nil_cons] at h; exact absurd h (by simp)
    | nil =>
      cases ss with
      | cons s ss =>
        rw [maskedAssignRows_nil_nil_cons] at h
        exact absurd h (by simp)
      | nil =>
        rw [maskedAssignRows_nil_nil_nil] at h
        cases h
        exact ⟨rfl, rfl, rfl⟩
  | cons b ms ih =>
    intro ts ss u h
    cases ts with
    | nil => rw [maskedAssignRows_cons_nil] at h; exact absurd h (by simp)
    | cons t ts =>
      cases b with
      | true =>
        cases ss with
        | nil => rw [maskedAssignRows_true_nil] at h; exact absurd h (by simp)
        | cons s ss =>
          rw [maskedAssignRows_true_cons] at h
          rcases Option.map_eq_some'.mp h with ⟨u', hu', hu⟩
          rcases ih ts ss u' hu' with ⟨h1, h2, h3⟩
          subst hu
          refine ⟨by simp [h1], by simp [h2], ?_⟩
          rw [countTrue_true]
          simp [h3]
      | false =>
        rw [maskedAssignRows_false_cons] at h
        rcases Option.map_eq_some'.mp h with ⟨u', hu', hu⟩
        rcases ih ts ss u' hu' with ⟨h1, h2, h3⟩
        subst hu
        exact ⟨by simp [h1], by simp [h2], by rw [countTrue_false]; exact h3⟩

/-- Positional assignment leaves un-selected rows unchanged. -/
theorem maskedAssignRows_false_rows :
    ∀ (ms : List Bool) (ts ss u : Mat), maskedAssignRows ms ts ss = some u →
      ∀ r, ms.getD r false = false → u.getD r [] = ts.getD r [] := by
  intro ms
  induction ms with
  | nil =>
    intro ts ss u h r _
    cases ts with
    | cons t ts => rw [maskedAssignRows_nil_cons] at h; exact absurd h (by simp)
    | nil =>
      cases ss with
      | cons s ss =>
        rw [maskedAssignRows_nil_nil_cons] at h
        exact absurd h (by simp)
      | nil => rw [maskedAssignRows_nil_nil_nil] at h; cases h; rfl
  | cons b ms ih =>
    intro ts ss u h r hmask
    cases ts with
    | nil => rw [maskedAssignRows_cons_nil] at h; exact absurd h (by simp)
    | cons t ts =>
      cases b with
      | true =>
        cases ss with
        | nil => rw [maskedAssignRows_true_nil] at h; exact absurd h (by simp)
        | cons s ss =>
          rw [maskedAssignRows_true_cons] at h
          rcases Option.map_eq_some'.mp h with ⟨u', hu', hu⟩
          subst hu
          cases r with
          | zero => simp at hmask
          | succ r =>
            simp only [List.getD_cons_succ] at hmask ⊢
            exact ih ts ss u' hu' r hmask
      | false =>
        rw [maskedAssignRows_false_cons] at h
        rcases Option.map_eq_some'.mp h with ⟨u', hu', hu⟩
        subst hu
        cases r with
        | zero => rfl
        | succ r =>
          simp only [List.getD_cons_succ] at hmask ⊢
          exact ih ts ss u' hu' r hmask

/-- Positional assignment writes source rows positionally: a selected row
`r` receives the source row whose position is the number of selected rows
before `r`. -/
theorem maskedAssignRows_true_rows :
    ∀ (ms : List Bool) (ts ss u : Mat), maskedAssignRows ms ts ss = some u →
      ∀ r, ms.getD r false = true →
        u.getD r [] = ss.getD (countTrue (ms.take r)) [] := by
  intro ms
  induction ms with
  | nil =>
    intro ts ss u h r hmask
    simp at hmask
  | cons b ms ih =>
    intro ts ss u h r hmask
    cases ts with
    | nil => rw [maskedAssignRows_cons_nil] at h; exact absurd h (by simp)
    | cons t ts =>
      cases b with
      | true =>
        cases ss with
        | nil => rw [maskedAssignRows_true_nil] at h; exact absurd h (by simp)
        | cons s ss =>
          rw [maskedAssignRows_true_cons] at h
          rcases Option.map_eq_some'.mp h with ⟨u', hu', hu⟩
          subst hu
          cases r with
          | zero => simp [List.take, countTrue]
          | succ r =>
            simp only [List.getD_cons_succ] at hmask ⊢
            rw [List.take_succ_cons, countTrue_true]
            simp only [List.getD_cons_succ]
            exact ih ts ss u' hu' r hmask
      | false =>
        rw [maskedAssignRows_false_cons] at h
        rcases Option.map_eq_some'.mp h with ⟨u', hu', hu⟩
        subst hu
        cases r with
        | zero => simp at hmask
        | succ r =>
          simp only [List.getD_cons_succ] at hmask ⊢
          rw [List.take_succ_cons, countTrue_false]
          exact ih ts ss u' hu' r hmask

/-- Every row of a positional-assignment result comes from the target or
source. -/
theorem maskedAssignRows_mem :
    ∀ (ms : List Bool) (ts ss u : Mat), maskedAssignRows ms ts ss = some u →
      ∀ row ∈ u, row ∈ ts ∨ row ∈ ss := by
  intro ms
  induction ms with
  | nil =>
    intro ts ss u h row hrow
    cases ts with
    | cons t ts => rw [maskedAssignRows_nil_cons] at h; exact absurd h (by simp)
    | nil =>
      cases ss with
      | cons s ss =>
        rw [maskedAssignRows_nil_nil_cons] at h
        exact absurd h (by simp)
      | nil => rw [maskedAssignRows_nil_nil_nil] at h; cases h; simp at hrow
  | cons b ms ih =>
    intro ts ss u h row hrow
    cases ts with
    | nil => rw [maskedAssignRows_cons_nil] at h; exact absurd h (by simp)
    | cons t ts =>
      cases b with
      | true =>
        cases ss with
        | nil => rw [maskedAssignRows_true_nil] at h; exact absurd h (by simp)
        | cons s ss =>
          rw [maskedAssignRows_true_cons] at h
          rcases Option.map_eq_some'.mp h with ⟨u', hu', hu⟩
          subst hu
          rcases List.mem_cons.mp hrow with hr | hr
          · exact Or.inr (hr ▸ List.mem_cons_self _ _)
          · rcases ih ts ss u' hu' row hr with h | h
            · exact Or.inl (List.mem_cons_of_mem _ h)
            · exact Or.inr (List.mem_cons_of_mem _ h)
      | false =>
        rw [maskedAssignRows_false_cons] at h
        rcases Option.map_eq_some'.mp h with ⟨u', hu', hu⟩
        subst hu
        rcases List.mem_cons.mp hrow with hr | hr
        · exact Or.inl (hr ▸ List.mem_cons_self _ _)
        · rcases ih ts ss u' hu' row hr with h | h
          · exact Or.inl (List.mem_cons_of_mem _ h)
          · exact Or.inr h

/-! ## Lemmas about single-row broadcast assignment -/

theorem broadcastRow_nil_nil (s : List FV) : broadcastRow [] [] s = some [] := rfl

theorem broadcastRow_nil_cons (t : List FV) (ts : Mat) (s : List FV) :
    broadcastRow [] (t :: ts) s = none := rfl

theorem broadcastRow_cons_nil (b : Bool) (ms : List Bool) (s : List FV) :
    broadcastRow (b :: ms) [] s = none := by
  cases b <;> rfl

theorem broadcastRow_true_cons (ms : List Bool) (t : List FV) (ts : Mat)
    (s : List FV) :
    broadcastRow (true :: ms) (t :: ts) s =
      (broadcastRow ms ts s).map (fun u => s :: u) := rfl

theorem broadcastRow_false_cons (ms : List Bool) (t : List FV) (ts : Mat)
    (s : List FV) :
    broadcastRow (false :: ms) (t :: ts) s =
      (broadcastRow ms ts s).map (fun u => t :: u) := rfl

theorem broadcastRow_some :
    ∀ (ms : List Bool) (ts : Mat) (s : List FV) (u : Mat),
      broadcastRow ms ts s = some u →
      u.length = ts.length ∧ ms.length = ts.length := by
  intro ms
  induction ms with
  | nil =>
    intro ts s u h
    cases ts with
    | cons t ts => rw [broadcastRow_nil_cons] at h; exact absurd h (by simp)
    | nil =>
      rw [broadcastRow_nil_nil] at h
      cases h
      exact ⟨rfl, rfl⟩
  | cons b ms ih =>
    intro ts s u h
    cases ts with
    | nil => rw [broadcastRow_cons_nil] at h; exact absurd h (by simp)
    | cons t ts =>
      cases b with
      | true =>
        rw [broadcastRow_true_cons] at h
        rcases Option.map_eq_some'.mp h with ⟨u', hu', hu⟩
        rcases ih ts s u' hu' with ⟨h1, h2⟩
        subst hu
        exact ⟨by simp [h1], by simp [h2]⟩
      | false =>
        rw [broadcastRow_false_cons] at h
        rcases Option.map_eq_some'.mp h with ⟨u', hu', hu⟩
        rcases ih ts s u' hu' with ⟨h1, h2⟩
        subst hu
        exact ⟨by simp [h1], by simp [h2]⟩

theorem broadcastRow_false_rows :
    ∀ (ms : List Bool) (ts : Mat) (s : List FV) (u : Mat),
      broadcastRow ms ts s = some u →
      ∀ r, ms.getD r false = false → u.getD r [] = ts.getD r [] := by
  intro ms
  induction ms with
  | nil =>
    intro ts s u h r _
    cases ts with
    | cons t ts => rw [broadcastRow_nil_cons] at h; exact absurd h (by simp)
    | nil => rw [broadcastRow_nil_nil] at h; cases h; rfl
  | cons b ms ih =>
    intro ts s u h r hmask
    cases ts with
    | nil => rw [broadcastRow_cons_nil] at h; exact absurd h (by simp)
    | cons t ts =>
      cases b with
      | true =>
        rw [broadcastRow_true_cons] at h
        rcases Option.map_eq_some'.mp h with ⟨u', hu', hu⟩
        subst hu
        cases r with
        | zero => simp at hmask
        | succ r =>
          simp only [List.getD_cons_succ] at hmask ⊢
          exact ih ts s u' hu' r hmask
      | false =>
        rw [broadcastRow_false_cons] at h
        rcases Option.map_eq_some'.mp h with ⟨u', hu', hu⟩
        subst hu
        cases r with
        | zero => rfl
        | succ r =>
          simp only [List.getD_cons_succ] at hmask ⊢
          exact ih ts s u' hu' r hmask

theorem broadcastRow_true_rows :
    ∀ (ms : List Bool) (ts : Mat) (s : List FV) (u : Mat),
      broadcastRow ms ts s = some u →
      ∀ r, ms.getD r false = true → u.getD r [] = s := by
  intro ms
  induction ms with
  | nil =>
    intro ts s u h r hmask
    simp at hmask
  | cons b ms ih =>
    intro ts s u h r hmask
    cases ts with
    | nil => rw [broadcastRow_cons_nil] at h; exact absurd h (by simp)
    | cons t ts =>
      cases b with
      | true =>
        rw [broadcastRow_true_cons] at h
        rcases Option.map_eq_some'.mp h with ⟨u', hu', hu⟩
        subst hu
        cases r with
        | zero => rfl
        | succ r =>
          simp only [List.getD_cons_succ] at hmask ⊢
          exact ih ts s u' hu' r hmask
      | false =>
        rw [broadcastRow_false_cons] at h
        rcases Option.map_eq_some'.mp h with ⟨u', hu', hu⟩
        subst hu
        cases r with
        | zero => simp at hmask
        | succ r =>
          simp only [List.getD_cons_succ] at hmask ⊢
          exact ih ts s u' hu' r hmask

theorem broadcastRow_mem :
    ∀ (ms : List Bool) (ts : Mat) (s : List FV) (u : Mat),
      broadcastRow ms ts s = some u →
      ∀ row ∈ u, row ∈ ts ∨ row = s := by
  intro ms
  induction ms with
  | nil =>
    intro ts s u h row hrow
    cases ts with
    | cons t ts => rw [broadcastRow_nil_cons] at h; exact absurd h (by simp)
    | nil => rw [broadcastRow_nil_nil] at h; cases h; simp at hrow
  | cons b ms ih =>
    intro ts s u h row hrow
    cases ts with
    | nil => rw [broadcastRow_cons_nil] at h; exact absurd h (by simp)
    | cons t ts =>
      cases b with
      | true =>
        rw [broadcastRow_true_cons] at h
        rcases Option.map_eq_some'.mp h with ⟨u', hu', hu⟩
        subst hu
        rcases List.mem_cons.mp hrow with hr | hr
        · exact Or.inr hr
        · rcases ih ts s u' hu' row hr with h | h
          · exact Or.inl (List.mem_cons_of_mem _ h)
          · exact Or.inr h
      | false =>
        rw [broadcastRow_false_cons] at h
        rcases Option.map_eq_some'.mp h with ⟨u', hu', hu⟩
        subst hu
        rcases List.mem_cons.mp hrow with hr | hr
        · exact Or.inl (hr ▸ List.mem_cons_self _ _)
        · rcases ih ts s u' hu' row hr with h | h
          · exact Or.inl (List.mem_cons_of_mem _ h)
          · exact Or.inr h

/-- Selected positions have strictly fewer selected positions before them
than the whole mask has. -/
theorem countTrue_take_lt :
    ∀ (ms : List Bool) (r : ℕ), ms.getD r false = true →
      countTrue (ms.take r) < countTrue ms := by
  intro ms
  induction ms with
  | nil => intro r h; simp at h
  | cons b ms ih =>
    intro r h
    cases r with
    | zero =>
      cases b with
      | false => simp at h
      | true => simp [List.take, countTrue_true, countTrue]
    | succ r =>
      simp only [List.getD_cons_succ] at h
      cases b with
      | true =>
        rw [List.take_succ_cons, countTrue_true, countTrue_true]
        exact Nat.add_lt_add_right (ih r h) 1
      | false =>
        rw [List.take_succ_cons, countTrue_false, countTrue_false]
        exact ih r h

/-! ## Lemmas about the full mask assignment (`maskedAssign`) -/

/-- A successful mask assignment forces the numpy conditions: the mask
matches the target's row count, and the source row count is either the
number of selected rows (positional) or one (broadcast); the result keeps
the target's row count. -/
theorem maskedAssign_some (ms : List Bool) (ts ss u : Mat)
    (h : maskedAssign ms ts ss = some u) :
    u.length = ts.length ∧ ms.length = ts.length ∧
      (ss.length = countTrue ms ∨ ss.length = 1) := by
  unfold maskedAssign at h
  by_cases hc : ss.length = countTrue ms
  · rw [if_pos hc] at h
    rcases maskedAssignRows_some ms ts ss u h with ⟨h1, h2, _⟩
    exact ⟨h1, h2, Or.inl hc⟩
  · rw [if_neg hc] at h
    cases ss with
    | nil => exact Option.noConfusion h
    | cons s ss2 =>
      cases ss2 with
      | nil =>
        rcases broadcastRow_some ms ts s u h with ⟨h1, h2⟩
        exact ⟨h1, h2, Or.inr rfl⟩
      | cons s2 ss3 => exact Option.noConfusion h

/-- Mask assignment leaves un-selected rows unchanged, in both the
positional and the broadcast case. -/
theorem maskedAssign_false_rows (ms : List Bool) (ts ss u : Mat)
    (h : maskedAssign ms ts ss = some u) :
    ∀ r, ms.getD r false = false → u.getD r [] = ts.getD r [] := by
  intro r hmask
  unfold maskedAssign at h
  by_cases hc : ss.length = countTrue ms
  · rw [if_pos hc] at h
    exact maskedAssignRows_false_rows ms ts ss u h r hmask
  · rw [if_neg hc] at h
    cases ss with
    | nil => exact Option.noConfusion h
    | cons s ss2 =>
      cases ss2 with
      | nil => exact broadcastRow_false_rows ms ts s u h r hmask
      | cons s2 ss3 => exact Option.noConfusion h

/-- When the source row count matches the selected-row count, mask
assignment writes source rows positionally. -/
theorem maskedAssign_true_rows (ms : List Bool) (ts ss u : Mat)
    (h : maskedAssign ms ts ss = some u)
    (hss : ss.length = countTrue ms) :
    ∀ r, ms.getD r false = true →
      u.getD r [] = ss.getD (countTrue (ms.take r)) [] := by
  unfold maskedAssign at h
  rw [if_pos hss] at h
  exact maskedAssignRows_true_rows ms ts ss u h

/-- A single-row source is written into every selected row. -/
theorem maskedAssign_single_row (ms : List Bool) (ts : Mat) (s : List FV)
    (u : Mat) (h : maskedAssign ms ts [s] = some u) :
    ∀ r, ms.getD r false = true → u.getD r [] = s := by
  intro r hmask
  unfold maskedAssign at h
  by_cases hc : ([s] : Mat).length = countTrue ms
  · rw [if_pos hc] at h
    have hpos := maskedAssignRows_true_rows ms ts [s] u h r hmask
    have hone : countTrue ms = 1 := by simpa using hc.symm
    have hlt := countTrue_take_lt ms r hmask
    have hzero : countTrue (ms.take r) = 0 := by omega
    rw [hpos, hzero]
    rfl
  · rw [if_neg hc] at h
    exact broadcastRow_true_rows ms ts s u h r hmask

/-- Every row of a mask-assignment result comes from the target or source. -/
theorem maskedAssign_mem (ms : List Bool) (ts ss u : Mat)
    (h : maskedAssign ms ts ss = some u) :
    ∀ row ∈ u, row ∈ ts ∨ row ∈ ss := by
  intro row hrow
  unfold maskedAssign at h
  by_cases hc : ss.length = countTrue ms
  · rw [if_pos hc] at h
    exact maskedAssignRows_mem ms ts ss u h row hrow
  · rw [if_neg hc] at h
    cases ss with
    | nil => exact Option.noConfusion h
    | cons s ss2 =>
      cases ss2 with
      | nil =>
        rcases broadcastRow_mem ms ts s u h row hrow with hm | hm
        · exact Or.inl hm
        · exact Or.inr (hm ▸ List.mem_cons_self _ _)
      | cons s2 ss3 => exact Option.noConfusion h

/-! ## Lemmas about the experiment row mask and the merge loop -/

theorem exptMask_length (d : InfData) (dd : ExptProduct) :
    (exptMask d dd).length = d.obs.names.length := by
  simp [exptMask]

theorem exptMask_getD_true (d : InfData) (dd : ExptProduct) (r : ℕ)
    (hr : r < d.obs.names.length) :
    (exptMask d dd).getD r false = true ↔ d.obs.names.getD r "" ∈ dd.obs_names := by
  unfold exptMask
  rw [List.getD_eq_getElem _ _ (by simpa using hr), List.getElem_map,
    List.getD_eq_getElem _ _ hr]
  exact List.elem_iff

theorem exptMask_getD_false (d : InfData) (dd : ExptProduct) (r : ℕ)
    (hmem : d.obs.names.getD r "" ∉ dd.obs_names) :
    (exptMask d dd).getD r false = false := by
  by_cases hr : r < d.obs.names.length
  · rw [Bool.eq_false_iff]
    intro hc
    exact hmem ((exptMask_getD_true d dd r hr).mp hc)
  · rw [List.getD_eq_default]
    rw [exptMask_length]
    omega

/-- In a duplicate-free list, the position of the `r`-th element inside the
filtered list is the number of earlier elements passing the filter. -/
theorem indexOf_filter_eq (p : String → Bool) :
    ∀ (names : List String), names.Nodup →
      ∀ r, r < names.length → p (names.getD r "") = true →
        List.indexOf (names.getD r "") (names.filter p) =
          ((names.take r).filter p).length := by
  intro names
  induction names with
  | nil => intro _ r hr; simp at hr
  | cons x xs ih =>
    intro hnd r hr hp
    rcases List.nodup_cons.mp hnd with ⟨hx, hxs⟩
    cases r with
    | zero =>
      simp only [List.getD_cons_zero] at hp ⊢
      rw [List.filter_cons, hp]
      simp [List.indexOf_cons_self]
    | succ r =>
      simp only [List.getD_cons_succ] at hp ⊢
      simp only [List.length_cons, Nat.add_lt_add_iff_right] at hr
      have hymem : xs.getD r "" ∈ xs := by
        rw [List.getD_eq_getElem _ _ hr]
        exact List.getElem_mem hr
      have hxy : x ≠ xs.getD r "" := fun hc => hx (hc ▸ hymem)
      rw [List.take_succ_cons, List.filter_cons, List.filter_cons]
      by_cases hpx : p x = true
      · rw [if_pos hpx, if_pos hpx, List.indexOf_cons_ne _ hxy,
          ih hxs r hr hp]
        simp
      · rw [if_neg hpx, if_neg hpx]
        exact ih hxs r hr hp

/-- Structure of a successful merge: the three masked assignments succeeded
and the result differs from the input only in the assigned layers. -/
theorem mergeExperiment_eq (d : InfData) (dd : ExptProduct)
    (dn : DenoisedProduct) (d' : InfData)
    (h : mergeExperiment d dd dn = some d') :
    ∃ den rv cc,
      maskedAssign (exptMask d dd) d.denoised dn.X = some den ∧
      maskedAssign (exptMask d dd) d.rapamycin_velocity dd.rapamycin_velocity
        = some rv ∧
      maskedAssign (exptMask d dd) d.cell_cycle_velocity dd.cell_cycle_velocity
        = some cc ∧
      d' = { d with denoised := den, rapamycin_velocity := rv,
                    cell_cycle_velocity := cc } := by
  unfold mergeExperiment at h
  cases h1 : maskedAssign (exptMask d dd) d.denoised dn.X with
  | none => rw [h1] at h; exact absurd h (by simp)
  | some den =>
    rw [h1] at h
    cases h2 : maskedAssign (exptMask d dd) d.rapamycin_velocity
        dd.rapamycin_velocity with
    | none => rw [h2] at h; exact absurd h (by simp)
    | some rv =>
      rw [h2] at h
      cases h3 : maskedAssign (exptMask d dd) d.cell_cycle_velocity
          dd.cell_cycle_velocity with
      | none => rw [h3] at h; exact absurd h (by simp)
      | some cc =>
        rw [h3] at h
        simp only [Option.some.injEq] at h
        exact ⟨den, rv, cc, rfl, rfl, rfl, h.symm⟩

/-- The merge loop only rewrites the `denoised` and velocity layers: all
other store components pass through unchanged. -/
theorem step4_frame :
    ∀ (expts : List (ExptProduct × DenoisedProduct)) (d d' : InfData),
      step4 expts d = some d' →
      d'.obs = d.obs ∧ d'.X = d.X ∧ d'.var = d.var ∧ d'.counts = d.counts ∧
      d'.decay_constants = d.decay_constants ∧
      d'.rapamycin_transcription = d.rapamycin_transcription ∧
      d'.cell_cycle_transcription = d.cell_cycle_transcription := by
  intro expts
  induction expts with
  | nil =>
    intro d d' h
    simp only [step4, Option.some.injEq] at h
    subst h
    exact ⟨rfl, rfl, rfl, rfl, rfl, rfl, rfl⟩
  | cons e rest ih =>
    intro d d' h
    simp only [step4] at h
    cases h1 : mergeExperiment d e.1 e.2 with
    | none => rw [h1] at h; exact absurd h (by simp)
    | some d1 =>
      rw [h1] at h
      rcases mergeExperiment_eq d e.1 e.2 d1 h1 with ⟨den, rv, cc, _, _, _, hd1⟩
      rcases ih d1 d' h with ⟨g1, g2, g3, g4, g5, g6, g7⟩
      subst hd1
      exact ⟨g1, g2, g3, g4, g5, g6, g7⟩

/-- Rows selected by no experiment of the loop are left unchanged in all
three assigned layers. -/
theorem step4_untouched :
    ∀ (expts : List (ExptProduct × DenoisedProduct)) (d d' : InfData),
      step4 expts d = some d' →
      ∀ r, (∀ e ∈ expts, d.obs.names.getD r "" ∉ e.1.obs_names) →
        getRow d'.denoised r = getRow d.denoised r ∧
        getRow d'.rapamycin_velocity r = getRow d.rapamycin_velocity r ∧
        getRow d'.cell_cycle_velocity r = getRow d.cell_cycle_velocity r := by
  intro expts
  induction expts with
  | nil =>
    intro d d' h r _
    simp only [step4, Option.some.injEq] at h
    subst h
    exact ⟨rfl, rfl, rfl⟩
  | cons e rest ih =>
    intro d d' h r hout
    simp only [step4] at h
    cases h1 : mergeExperiment d e.1 e.2 with
    | none => rw [h1] at h; exact absurd h (by simp)
    | some d1 =>
      rw [h1] at h
      rcases mergeExperiment_eq d e.1 e.2 d1 h1 with ⟨den, rv, cc, ha1, ha2, ha3, hd1⟩
      have hmask : (exptMask d e.1).getD r false = false :=
        exptMask_getD_false d e.1 r (hout e (List.mem_cons_self _ _))
      have hobs : d1.obs = d.obs := by rw [hd1]
      have hout1 : ∀ f ∈ rest, d1.obs.names.getD r "" ∉ f.1.obs_names := by
        rw [hobs]
        exact fun f hf => hout f (List.mem_cons_of_mem _ hf)
      rcases ih d1 d' h r hout1 with ⟨g1, g2, g3⟩
      refine ⟨?_, ?_, ?_⟩
      · rw [g1, hd1]
        exact maskedAssign_false_rows _ _ _ _ ha1 r hmask
      · rw [g2, hd1]
        exact maskedAssign_false_rows _ _ _ _ ha2 r hmask
      · rw [g3, hd1]
        exact maskedAssign_false_rows _ _ _ _ ha3 r hmask

/-- One merge writes, at each selected row, the product row at the position
of this row's identifier within the decay product's identifier list —
provided the product lists its identifiers in store order and carries, per
the spec's LayerStore invariant, one row per identifier (which rules out the
numpy single-row broadcast). -/
theorem mergeExperiment_covered (d : InfData) (dd : ExptProduct)
    (dn : DenoisedProduct) (d' : InfData)
    (h : mergeExperiment d dd dn = some d')
    (hnd : d.obs.names.Nodup)
    (halign : dd.obs_names =
      d.obs.names.filter (fun s => dd.obs_names.contains s))
    (hLrv : dd.rapamycin_velocity.length = dd.obs_names.length)
    (hLcc : dd.cell_cycle_velocity.length = dd.obs_names.length)
    (hLdn : dn.X.length = dd.obs_names.length)
    (r : ℕ) (hr : r < d.obs.names.length)
    (hmem : d.obs.names.getD r "" ∈ dd.obs_names) :
    getRow d'.denoised r =
      getRow dn.X (List.indexOf (d.obs.names.getD r "") dd.obs_names) ∧
    getRow d'.rapamycin_velocity r =
      getRow dd.rapamycin_velocity
        (List.indexOf (d.obs.names.getD r "") dd.obs_names) ∧
    getRow d'.cell_cycle_velocity r =
      getRow dd.cell_cycle_velocity
        (List.indexOf (d.obs.names.getD r "") dd.obs_names) := by
  rcases mergeExperiment_eq d dd dn d' h with ⟨den, rv, cc, ha1, ha2, ha3, hd1⟩
  have hmask : (exptMask d dd).getD r false = true :=
    (exptMask_getD_true d dd r hr).mpr hmem
  have hp : (fun s => dd.obs_names.contains s) (d.obs.names.getD r "") = true :=
    List.elem_iff.mpr hmem
  have hidx : List.indexOf (d.obs.names.getD r "") dd.obs_names =
      countTrue ((exptMask d dd).take r) := by
    conv_lhs => rw [halign]
    rw [indexOf_filter_eq _ d.obs.names hnd r hr hp]
    unfold exptMask
    rw [← List.map_take, countTrue_map]
  have hcnt : countTrue (exptMask d dd) = dd.obs_names.length := by
    unfold exptMask
    rw [countTrue_map]
    exact (congrArg List.length halign).symm
  have hrow : ∀ layer src out, maskedAssign (exptMask d dd) layer src = some out →
      src.length = dd.obs_names.length →
      getRow out r = getRow src (List.indexOf (d.obs.names.getD r "") dd.obs_names) := by
    intro layer src out hout hsrc
    unfold getRow
    rw [hidx]
    exact maskedAssign_true_rows _ _ _ _ hout (by rw [hsrc, hcnt]) r hmask
  subst hd1
  exact ⟨hrow _ _ _ ha1 hLdn, hrow _ _ _ ha2 hLrv, hrow _ _ _ ha3 hLcc⟩

/-- After the whole merge loop, each experiment's covered rows hold that
experiment's product rows (its row sets being disjoint from the other
experiments'). -/
theorem step4_covered :
    ∀ (expts : List (ExptProduct × DenoisedProduct)) (d d' : InfData),
      step4 expts d = some d' →
      d.obs.names.Nodup →
      List.Pairwise (fun e f => ∀ s, s ∈ e.1.obs_names → s ∉ f.1.obs_names)
        expts →
      ∀ e ∈ expts,
        e.1.obs_names =
          d.obs.names.filter (fun s => e.1.obs_names.contains s) →
        e.1.rapamycin_velocity.length = e.1.obs_names.length →
        e.1.cell_cycle_velocity.length = e.1.obs_names.length →
        e.2.X.length = e.1.obs_names.length →
        ∀ r, r < d.obs.names.length →
          d.obs.names.getD r "" ∈ e.1.obs_names →
          getRow d'.denoised r =
            getRow e.2.X (List.indexOf (d.obs.names.getD r "") e.1.obs_names) ∧
          getRow d'.rapamycin_velocity r =
            getRow e.1.rapamycin_velocity
              (List.indexOf (d.obs.names.getD r "") e.1.obs_names) ∧
          getRow d'.cell_cycle_velocity r =
            getRow e.1.cell_cycle_velocity
              (List.indexOf (d.obs.names.getD r "") e.1.obs_names) := by
  intro expts
  induction expts with
  | nil => intro d d' _ _ _ e he; simp at he
  | cons f rest ih =>
    intro d d' h hnd hpair e he halign hLrv hLcc hLdn r hr hmem
    simp only [step4] at h
    cases h1 : mergeExperiment d f.1 f.2 with
    | none => rw [h1] at h; exact absurd h (by simp)
    | some d1 =>
      rw [h1] at h
      have hobs : d1.obs = d.obs := by
        rcases mergeExperiment_eq d f.1 f.2 d1 h1 with ⟨den, rv, cc, _, _, _, hd1⟩
        rw [hd1]
      rcases List.pairwise_cons.mp hpair with ⟨hf, hrest⟩
      rcases List.mem_cons.mp he with hefirst | herest
      · subst hefirst
        have hcov := mergeExperiment_covered d e.1 e.2 d1 h1 hnd halign
          hLrv hLcc hLdn r hr hmem
        have hout1 : ∀ g ∈ rest, d1.obs.names.getD r "" ∉ g.1.obs_names := by
          rw [hobs]
          exact fun g hg => hf g hg _ hmem
        rcases step4_untouched rest d1 d' h r hout1 with ⟨g1, g2, g3⟩
        exact ⟨g1.trans hcov.1, g2.trans hcov.2.1, g3.trans hcov.2.2⟩
      · have := ih d1 d' h (hobs ▸ hnd) hrest e herest (by rw [hobs]; exact halign)
          hLrv hLcc hLdn r (by rw [hobs]; exact hr) (by rw [hobs]; exact hmem)
        simpa [hobs] using this

/-- Rows of a not-a-number fill. -/
theorem getRow_mkFull (n M r : ℕ) (hr : r < n) :
    getRow (mkFull n M) r = List.replicate M FV.nan := by
  unfold getRow mkFull
  rw [List.getD_eq_getElem _ _ (by simpa using hr), List.getElem_replicate]

/-- The original position of a selected element carries a `true` mask bit. -/
theorem trueIdx_mask_true :
    ∀ (keep : List Bool) (c : ℕ), c < countTrue keep →
      keep.getD (trueIdx keep c) false = true := by
  intro keep
  induction keep with
  | nil => intro c h; simp [countTrue] at h
  | cons b ks ih =>
    intro c h
    cases b with
    | true =>
      cases c with
      | zero => rw [trueIdx_cons_true_zero]; rfl
      | succ c =>
        rw [trueIdx_cons_true_succ]
        simp only [List.getD_cons_succ]
        rw [countTrue_true] at h
        exact ih c (by omega)
    | false =>
      rw [trueIdx_cons_false]
      simp only [List.getD_cons_succ]
      rw [countTrue_false] at h
      exact ih c h

/-! ## Lemmas about column lookup and `setCol` -/

theorem lookup_cons_ne (key k : String) (v : List ℚ) (l : List (String × List ℚ))
    (h : ¬ key = k) : ((k, v) :: l).lookup key = l.lookup key := by
  simp only [List.lookup]
  rw [beq_eq_false_iff_ne.mpr h]

theorem lookup_cons_self (k : String) (v : List ℚ) (l : List (String × List ℚ)) :
    ((k, v) :: l).lookup k = some v := by
  simp [List.lookup]

/-- Setting one column does not change the lookup of a differently-named
column. -/
theorem lookup_setCol_ne (t : ObsTable) (name key : String) (vals : List ℚ)
    (h : ¬ key = name) :
    (setCol t name vals).numCols.lookup key = t.numCols.lookup key := by
  unfold setCol
  show (t.numCols.filter (fun p => !(p.1 == name)) ++ [(name, vals)]).lookup key
    = t.numCols.lookup key
  induction t.numCols with
  | nil =>
    simp only [List.filter_nil, List.nil_append]
    rw [lookup_cons_ne key name vals [] h]
  | cons p rest ih =>
    obtain ⟨k, v⟩ := p
    rw [List.filter_cons]
    by_cases hk : k = name
    · subst hk
      simp only [beq_self_eq_true, Bool.not_true, Bool.false_eq_true, if_false]
      rw [ih, lookup_cons_ne key k v rest h]
    · have hkb : (k == name) = false := beq_eq_false_iff_ne.mpr hk
      rw [hkb]
      simp only [Bool.not_false, if_true]
      by_cases hkey : key = k
      · subst hkey
        rw [List.cons_append, lookup_cons_self, lookup_cons_self]
      · rw [List.cons_append, lookup_cons_ne key k v _ hkey,
          lookup_cons_ne key k v rest hkey, ih]

theorem setCol_mem_self (t : ObsTable) (name : String) (vals : List ℚ) :
    (name, vals) ∈ (setCol t name vals).numCols := by
  unfold setCol
  simp

theorem setCol_mem_of_ne (t : ObsTable) (name : String) (vals : List ℚ)
    (q : String × List ℚ) (hq : q ∈ t.numCols) (h : ¬ q.1 = name) :
    q ∈ (setCol t name vals).numCols := by
  unfold setCol
  simp only [List.mem_append]
  left
  rw [List.mem_filter]
  exact ⟨hq, by simp [h]⟩

theorem length_prog_name (x : String) :
    ("program_" ++ x ++ "_time").length = x.length + 13 := by
  rw [String.length_append, String.length_append]
  have h1 : "program_".length = 8 := rfl
  have h2 : "_time".length = 5 := rfl
  omega

/-- A resolved pseudotime column name is distinct from any short name (the
embedding column names in particular). -/
theorem prog_name_ne (x s : String) (hs : s.length < 13) :
    ¬ ("program_" ++ x ++ "_time") = s := by
  intro h
  have hl := congrArg String.length h
  rw [length_prog_name] at hl
  omega

/-- Writing the UMAP/PCA embedding columns does not affect the lookup of a
resolved pseudotime column. -/
theorem lookup_step1Obs (a : AllData) (x : String) :
    (step1Obs a).numCols.lookup ("program_" ++ x ++ "_time") =
      a.obs.numCols.lookup ("program_" ++ x ++ "_time") := by
  unfold step1Obs
  rw [lookup_setCol_ne _ _ _ _ (prog_name_ne x "PCA_2" (by decide)),
    lookup_setCol_ne _ _ _ _ (prog_name_ne x "PCA_1" (by decide)),
    lookup_setCol_ne _ _ _ _ (prog_name_ne x "UMAP_2" (by decide)),
    lookup_setCol_ne _ _ _ _ (prog_name_ne x "UMAP_1" (by decide))]

/-! ## Claim C1 -/

/-- C1: After the Step 4 merge loop, for every experiment with identifier
list `I` and decay velocity layers `D`, every output-store row whose
identifier is in `I` holds in `rapamycin_velocity` the experiment product's
corresponding row (the product row at this identifier's position in `I`),
and likewise for `cell_cycle_velocity` and for `denoised` from the denoised
product; every row whose identifier is in no experiment's identifier list
still holds the not-a-number fill in all three layers.  The hypotheses are
the spec's stated preconditions: unique observation identifiers, pairwise
disjoint experiment row sets, each product listing its identifiers in the
output store's row order, each product layer carrying one row per product
identifier (the spec's LayerStore invariant, which rules out the numpy
single-row broadcast), and the three layers starting from the Step 3
not-a-number fill. -/
theorem C1_row_merge (expts : List (ExptProduct × DenoisedProduct))
    (d d' : InfData) (n M : ℕ)
    (hrun : step4 expts d = some d')
    (hnd : d.obs.names.Nodup)
    (hpair : List.Pairwise
      (fun e f => ∀ s, s ∈ e.1.obs_names → s ∉ f.1.obs_names) expts)
    (hn : d.obs.names.length = n)
    (hrv : d.rapamycin_velocity = mkFull n M)
    (hcc : d.cell_cycle_velocity = mkFull n M)
    (hden : d.denoised = mkFull n M) :
    (∀ e ∈ expts,
      e.1.obs_names = d.obs.names.filter (fun s => e.1.obs_names.contains s) →
      e.1.rapamycin_velocity.length = e.1.obs_names.length →
      e.1.cell_cycle_velocity.length = e.1.obs_names.length →
      e.2.X.length = e.1.obs_names.length →
      ∀ r, r < n → d.obs.names.getD r "" ∈ e.1.obs_names →
        getRow d'.rapamycin_velocity r =
          getRow e.1.rapamycin_velocity
            (List.indexOf (d.obs.names.getD r "") e.1.obs_names) ∧
        getRow d'.cell_cycle_velocity r =
          getRow e.1.cell_cycle_velocity
            (List.indexOf (d.obs.names.getD r "") e.1.obs_names) ∧
        getRow d'.denoised r =
          getRow e.2.X (List.indexOf (d.obs.names.getD r "") e.1.obs_names)) ∧
    (∀ r, r < n → (∀ e ∈ expts, d.obs.names.getD r "" ∉ e.1.obs_names) →
        getRow d'.rapamycin_velocity r = List.replicate M FV.nan ∧
        getRow d'.cell_cycle_velocity r = List.replicate M FV.nan ∧
        getRow d'.denoised r = List.replicate M FV.nan) := by
  constructor
  · intro e he halign hLrv hLcc hLdn r hr hmem
    rcases step4_covered expts d d' hrun hnd hpair e he halign hLrv hLcc hLdn
      r (by omega) hmem with ⟨g1, g2, g3⟩
    exact ⟨g2, g3, g1⟩
  · intro r hr hout
    rcases step4_untouched expts d d' hrun r hout with ⟨g1, g2, g3⟩
    refine ⟨?_, ?_, ?_⟩
    · rw [g2, hrv]; exact getRow_mkFull n M r hr
    · rw [g3, hcc]; exact getRow_mkFull n M r hr
    · rw [g1, hden]; exact getRow_mkFull n M r hr

/-- Witness for C1 on the concrete two-row store: the covered row receives
the product rows, the uncovered row keeps the not-a-number fill. -/
theorem C1_row_merge_witness :
    getRow cD1.rapamycin_velocity 0 = [FV.val 2] ∧
    getRow cD1.denoised 0 = [FV.val 4] ∧
    getRow cD1.rapamycin_velocity 1 = [FV.nan] := by
  have h := C1_row_merge [(cDD, cDN)] cD cD1 2 1 (by decide) (by decide)
    (by simp) (by decide) (by decide) (by decide) (by decide)
  have hb : ∀ e ∈ [(cDD, cDN)], cD.obs.names.getD 1 "" ∉ e.1.obs_names := by
    intro e he
    rw [List.mem_singleton] at he
    subst he
    decide
  have h0 := h.1 (cDD, cDN) (List.mem_singleton_self _) (by decide)
    (by decide) (by decide) (by decide) 0 (by decide) (by decide)
  have h1 := h.2 1 (by decide) hb
  exact ⟨h0.1.trans (by decide), h0.2.2.trans (by decide), h1.1.trans (by decide)⟩

/-! ## Claim C3 -/

/-- C3 counterexample: with an experiment whose decay product holds decay
constants different from the store's, the merge loop completes with the
store's `decay_constants` layer unchanged at a covered row — the loop body
does not assign decay constants from the experiment's decay product. -/
theorem C3_counterexample :
    cD.obs.names.getD 0 "" ∈ cDD.obs_names ∧
    step4 [(cDD, cDN)] cD = some cD1 ∧
    getRow cD1.decay_constants 0 = getRow cD.decay_constants 0 ∧
    getRow cD1.decay_constants 0 ≠ getRow cDD.decay_constants 0 := by decide

/-- C3 amended: the single shared `decay_constants` layer is copied wholesale
from the source object at Step 1 base construction, and the Step 4 merge loop
leaves it untouched for every experiment list. -/
theorem C3_decay_not_merged :
    (∀ (a : AllData) (d1 : InfData), step1 a = Except.ok d1 →
      d1.decay_constants = a.decay_constants) ∧
    (∀ (expts : List (ExptProduct × DenoisedProduct)) (d d' : InfData),
      step4 expts d = some d' → d'.decay_constants = d.decay_constants) := by
  constructor
  · intro a d1 h
    unfold step1 at h
    cases h1 : (step1Obs a).numCols.lookup
        ("program_" ++ a.rapa_program ++ "_time") with
    | none => rw [h1] at h; exact absurd h (by simp)
    | some rc =>
      rw [h1] at h
      cases h2 : (step1Obs a).numCols.lookup
          ("program_" ++ a.cell_cycle_program ++ "_time") with
      | none => rw [h2] at h; exact absurd h (by simp)
      | some cc =>
        rw [h2] at h
        simp only [Except.ok.injEq] at h
        rw [← h]
  · intro expts d d' h
    exact (step4_frame expts d d' h).2.2.2.2.1

/-- Witness for the amended C3 at the concrete inputs. -/
theorem C3_decay_not_merged_witness :
    step1 cAll = Except.ok cS1 ∧ cS1.decay_constants = cAll.decay_constants ∧
    step4 [(cDD, cDN)] cD = some cD1 ∧
    cD1.decay_constants = cD.decay_constants :=
  ⟨rfl, C3_decay_not_merged.1 cAll cS1 rfl, by decide,
   C3_decay_not_merged.2 [(cDD, cDN)] cD cD1 (by decide)⟩

/-! ## Claim C10 -/

/-- C10 counterexample: with a denoised product of a single row while the
decay product's mask selects two rows, the merge does not fail — the single
row is silently broadcast into every selected row, refuting the claimed
failure on a row-count mismatch. -/
theorem C10_counterexample :
    cDNone.X.length = 1 ∧
    countTrue (exptMask cD cDDbc) = 2 ∧
    cDNone.X.length ≠ countTrue (exptMask cD cDDbc) ∧
    mergeExperiment cD cDDbc cDNone = some cDbc1 ∧
    getRow cDbc1.denoised 0 = getRow cDNone.X 0 ∧
    getRow cDbc1.denoised 1 = getRow cDNone.X 0 := by decide

/-- C10 (amended): in the merge body the denoised product's matrix is
assigned at the row positions selected by the decay product's identifiers —
positionally, when its row count equals the selected-row count —
independently of the denoised product's own identifiers; the merge fails
when the denoised product's row count differs from the selected-row count,
except that a single-row denoised matrix is silently broadcast into every
selected row. -/
theorem C10_denoised_positional (d : InfData) (dd : ExptProduct)
    (dn : DenoisedProduct) :
    (∀ d', mergeExperiment d dd dn = some d' →
      dn.X.length = countTrue (exptMask d dd) →
      ∀ r, (exptMask d dd).getD r false = true →
        getRow d'.denoised r =
          getRow dn.X (countTrue ((exptMask d dd).take r))) ∧
    (∀ other, mergeExperiment d dd { dn with obs_names := other } =
      mergeExperiment d dd dn) ∧
    (dn.X.length ≠ countTrue (exptMask d dd) → dn.X.length ≠ 1 →
      mergeExperiment d dd dn = none) ∧
    (∀ s d', dn.X = [s] → mergeExperiment d dd dn = some d' →
      ∀ r, (exptMask d dd).getD r false = true →
        getRow d'.denoised r = s) := by
  refine ⟨?_, fun other => rfl, ?_, ?_⟩
  · intro d' h hss r hmask
    rcases mergeExperiment_eq d dd dn d' h with ⟨den, rv, cc, ha1, _, _, hd1⟩
    subst hd1
    exact maskedAssign_true_rows _ _ _ _ ha1 hss r hmask
  · intro hlen hone
    cases h : mergeExperiment d dd dn with
    | none => rfl
    | some d' =>
      rcases mergeExperiment_eq d dd dn d' h with ⟨den, rv, cc, ha1, _, _, _⟩
      rcases (maskedAssign_some _ _ _ _ ha1).2.2 with hc | hc
      · exact absurd hc hlen
      · exact absurd hc hone
  · intro s d' hXs h r hmask
    rcases mergeExperiment_eq d dd dn d' h with ⟨den, rv, cc, ha1, _, _, hd1⟩
    rw [hXs] at ha1
    subst hd1
    exact maskedAssign_single_row _ _ _ _ ha1 r hmask

/-- Witness for C10 at the concrete inputs: positional placement, mask
independence from the denoised product's identifiers, failure on a non-unit
row-count mismatch, and the single-row broadcast. -/
theorem C10_denoised_positional_witness :
    getRow cD1.denoised 0 = getRow cDN.X 0 ∧
    mergeExperiment cD cDD { cDN with obs_names := ["z"] } =
      mergeExperiment cD cDD cDN ∧
    mergeExperiment cD cDD cDNbig = none ∧
    getRow cDbc1.denoised 1 = [FV.val 4] := by
  refine ⟨?_, (C10_denoised_positional cD cDD cDN).2.1 ["z"],
    (C10_denoised_positional cD cDD cDNbig).2.2.1 (by decide) (by decide),
    (C10_denoised_positional cD cDDbc cDNone).2.2.2 [FV.val 4] cDbc1
      (by decide) (by decide) 1 (by decide)⟩
  have h := (C10_denoised_positional cD cDD cDN).1 cD1 (by decide) (by decide)
    0 (by decide)
  exact h.trans (by decide)

/-! ## Claim C7 -/

/-- C7: Step 1 resolves the pseudotime source columns through the attribute
map (`program_<X>_time`) into the fixed output columns `program_rapa_time`
and `program_cc_time`; if the attribute map names a program id with no
matching column, the whole pipeline fails at Step 1 with
`UndefinedColumnReference` (fatal, not swallowed). -/
theorem C7_pseudotime_resolution (a : AllData) :
    ((a.obs.numCols.lookup ("program_" ++ a.rapa_program ++ "_time") = none ∨
      a.obs.numCols.lookup ("program_" ++ a.cell_cycle_program ++ "_time")
        = none) →
      ∀ expts after,
        package a expts after = Except.error Err.UndefinedColumnReference) ∧
    (∀ d1, step1 a = Except.ok d1 →
      ("program_rapa_time",
        (a.obs.numCols.lookup ("program_" ++ a.rapa_program ++ "_time")).getD [])
        ∈ d1.obs.numCols ∧
      ("program_cc_time",
        (a.obs.numCols.lookup
          ("program_" ++ a.cell_cycle_program ++ "_time")).getD [])
        ∈ d1.obs.numCols) := by
  constructor
  · intro hmiss expts after
    have hstep : step1 a = Except.error Err.UndefinedColumnReference := by
      unfold step1
      rcases hmiss with hm | hm
      · rw [lookup_step1Obs a a.rapa_program, hm]
      · cases h1 : (step1Obs a).numCols.lookup
            ("program_" ++ a.rapa_program ++ "_time") with
        | none => rfl
        | some rc => rw [lookup_step1Obs a a.cell_cycle_program, hm]
    unfold package
    rw [hstep]
  · intro d1 h
    unfold step1 at h
    cases h1 : (step1Obs a).numCols.lookup
        ("program_" ++ a.rapa_program ++ "_time") with
    | none => rw [h1] at h; exact absurd h (by simp)
    | some rc =>
      rw [h1] at h
      cases h2 : (step1Obs a).numCols.lookup
          ("program_" ++ a.cell_cycle_program ++ "_time") with
      | none => rw [h2] at h; exact absurd h (by simp)
      | some cc =>
        rw [h2] at h
        simp only [Except.ok.injEq] at h
        subst h
        rw [← lookup_step1Obs a a.rapa_program, ← lookup_step1Obs a
          a.cell_cycle_program, h1, h2]
        simp only [Option.getD_some]
        constructor
        · exact setCol_mem_of_ne _ _ _ _
            (setCol_mem_self (step1Obs a) "program_rapa_time" rc) (by simp)
        · exact setCol_mem_self _ "program_cc_time" cc

/-- Witness for C7: the pipeline fails on a source whose attribute map names
a missing program, and succeeds resolving the columns on the good source. -/
theorem C7_pseudotime_resolution_witness :
    package cAllBad [] 1 = Except.error Err.UndefinedColumnReference ∧
    ("program_rapa_time",
      (cAll.obs.numCols.lookup
        ("program_" ++ cAll.rapa_program ++ "_time")).getD [])
      ∈ cS1.obs.numCols :=
  ⟨(C7_pseudotime_resolution cAllBad).1 (Or.inl (by decide)) [] 1,
   ((C7_pseudotime_resolution cAll).2 cS1 rfl).1⟩

/-! ## Lemmas about the total-count normalization -/

theorem sum_nnval (row : List FV) (h : ∀ x ∈ row, isNNVal x = true) :
    ∃ t, 0 ≤ t ∧ FV.sum row = FV.val t := by
  induction row with
  | nil => exact ⟨0, le_refl 0, rfl⟩
  | cons x xs ih =>
    obtain ⟨t, ht, hs⟩ := ih (fun y hy => h y (List.mem_cons_of_mem _ hy))
    have hx := h x (List.mem_cons_self _ _)
    cases x with
    | nan => simp [isNNVal] at hx
    | val q =>
      simp only [isNNVal, decide_eq_true_eq] at hx
      refine ⟨q + t, add_nonneg hx ht, ?_⟩
      show FV.add (FV.val q) (FV.sum xs) = FV.val (q + t)
      rw [hs]
      rfl

/-- On nonnegative finite data, the `min_counts = 0` row filter keeps every
row. -/
theorem normKeep_all_true (d : InfData)
    (hval : ∀ row ∈ d.X, ∀ x ∈ row, isNNVal x = true) :
    ∀ b ∈ d.X.map (fun row => fvGE (FV.sum row) 0), b = true := by
  intro b hb
  rcases List.mem_map.mp hb with ⟨row, hrow, hbe⟩
  obtain ⟨t, ht, hs⟩ := sum_nnval row (hval row hrow)
  rw [← hbe, hs]
  simp [fvGE, ht]

theorem normRow_nil (after : ℚ) : normRow after [] = [] := by
  simp [normRow, FV.sum]

theorem getRow_map (f : List FV → List FV) (hf : f [] = []) (m : Mat) (r : ℕ) :
    getRow (m.map f) r = f (getRow m r) := by
  unfold getRow
  by_cases hr : r < m.length
  · rw [List.getD_eq_getElem _ _ (by simpa using hr), List.getElem_map,
      List.getD_eq_getElem _ _ hr]
  · rw [List.getD_eq_default _ _ (by simpa using not_lt.mp hr),
      List.getD_eq_default _ _ (not_lt.mp hr), hf]

/-- On nonnegative finite data, normalization rescales the primary matrix
row-wise and drops nothing. -/
theorem normalize_X (d : InfData) (after : ℚ)
    (hval : ∀ row ∈ d.X, ∀ x ∈ row, isNNVal x = true) :
    (normalize_per_cell 0 after d).X = d.X.map (normRow after) := by
  show (maskFilter (d.X.map (fun row => fvGE (FV.sum row) 0)) d.X).map
      (normRow after) = d.X.map (normRow after)
  rw [maskFilter_all_true _ _ (normKeep_all_true d hval) (by simp)]

/-! ## Claim C5 -/

/-- C5: in the Step 3 row-wise total-count normalization (invoked on
nonnegative count data), a row of the primary matrix whose total is zero is
passed through unmodified — no division by zero occurs and none of its
entries become not-a-number. -/
theorem C5_zero_total_row (d : InfData) (after : ℚ) (r : ℕ)
    (hval : ∀ row ∈ d.X, ∀ x ∈ row, isNNVal x = true)
    (hzero : FV.sum (getRow d.X r) = FV.val 0) :
    getRow (normalize_per_cell 0 after d).X r = getRow d.X r ∧
    ∀ x ∈ getRow (normalize_per_cell 0 after d).X r, ¬ x = FV.nan := by
  have hX := normalize_X d after hval
  have hrow : getRow (normalize_per_cell 0 after d).X r = getRow d.X r := by
    rw [hX, getRow_map (normRow after) (normRow_nil after)]
    unfold normRow
    rw [hzero]
    simp
  refine ⟨hrow, ?_⟩
  rw [hrow]
  intro x hx
  by_cases hr : r < d.X.length
  · have hmem : getRow d.X r ∈ d.X := by
      unfold getRow
      rw [List.getD_eq_getElem _ _ hr]
      exact List.getElem_mem hr
    have hnn := hval _ hmem x hx
    cases x with
    | nan => simp [isNNVal] at hnn
    | val q => simp
  · unfold getRow at hx
    rw [List.getD_eq_default _ _ (not_lt.mp hr)] at hx
    simp at hx

/-- Witness for C5 on a concrete store whose first row sums to zero. -/
theorem C5_zero_total_row_witness :
    getRow (normalize_per_cell 0 2 cDz).X 0 = getRow cDz.X 0 :=
  (C5_zero_total_row cDz 2 0 (by decide)
    (by simp [cDz, getRow, FV.sum, FV.add])).1

/-! ## Claim C9 -/

/-- C9: invoked with a zero minimum-count threshold on nonnegative count
data, the normalization drops no observation — the primary matrix keeps its
row count and only its values change: `obs`, `var`, the `counts` layer and
every other layer pass through untouched. -/
theorem C9_normalize_no_drop (d : InfData) (after : ℚ)
    (hval : ∀ row ∈ d.X, ∀ x ∈ row, isNNVal x = true)
    (hobs1 : d.obs.names.length = d.X.length)
    (hobs2 : d.obs.gene.length = d.X.length)
    (hobs3 : ∀ p ∈ d.obs.numCols, p.2.length = d.X.length)
    (hc : d.counts.length ≤ d.X.length)
    (hdc : d.decay_constants.length ≤ d.X.length)
    (hrv : d.rapamycin_velocity.length ≤ d.X.length)
    (hcv : d.cell_cycle_velocity.length ≤ d.X.length)
    (hde : d.denoised.length ≤ d.X.length)
    (hrt : d.rapamycin_transcription.length ≤ d.X.length)
    (hct : d.cell_cycle_transcription.length ≤ d.X.length) :
    (normalize_per_cell 0 after d).X.length = d.X.length ∧
    (normalize_per_cell 0 after d).X = d.X.map (normRow after) ∧
    (normalize_per_cell 0 after d).obs = d.obs ∧
    (normalize_per_cell 0 after d).var = d.var ∧
    (normalize_per_cell 0 after d).counts = d.counts ∧
    (normalize_per_cell 0 after d).decay_constants = d.decay_constants ∧
    (normalize_per_cell 0 after d).rapamycin_velocity
      = d.rapamycin_velocity ∧
    (normalize_per_cell 0 after d).cell_cycle_velocity
      = d.cell_cycle_velocity ∧
    (normalize_per_cell 0 after d).denoised = d.denoised ∧
    (normalize_per_cell 0 after d).rapamycin_transcription
      = d.rapamycin_transcription ∧
    (normalize_per_cell 0 after d).cell_cycle_transcription
      = d.cell_cycle_transcription := by
  have hall := normKeep_all_true d hval
  have hklen : (d.X.map (fun row => fvGE (FV.sum row) 0)).length = d.X.length :=
    List.length_map _ _
  have hmf : ∀ {α : Type} (l : List α), l.length ≤ d.X.length →
      maskFilter (d.X.map (fun row => fvGE (FV.sum row) 0)) l = l := by
    intro α l hl
    exact maskFilter_all_true _ l hall (by omega)
  have hX := normalize_X d after hval
  refine ⟨by rw [hX]; simp, hX, ?_, rfl, hmf d.counts hc,
    hmf d.decay_constants hdc, hmf d.rapamycin_velocity hrv,
    hmf d.cell_cycle_velocity hcv, hmf d.denoised hde,
    hmf d.rapamycin_transcription hrt, hmf d.cell_cycle_transcription hct⟩
  show ObsTable.mk
      (maskFilter (d.X.map (fun row => fvGE (FV.sum row) 0)) d.obs.names)
      (maskFilter (d.X.map (fun row => fvGE (FV.sum row) 0)) d.obs.gene)
      (d.obs.numCols.map (fun p =>
        (p.1, maskFilter (d.X.map (fun row => fvGE (FV.sum row) 0)) p.2)))
    = d.obs
  rw [hmf d.obs.names (le_of_eq hobs1), hmf d.obs.gene (le_of_eq hobs2)]
  have hcols : d.obs.numCols.map (fun p =>
      (p.1, maskFilter (d.X.map (fun row => fvGE (FV.sum row) 0)) p.2))
      = d.obs.numCols.map id := by
    apply List.map_congr_left
    intro p hp
    rw [hmf p.2 (le_of_eq (hobs3 p hp))]
    rfl
  rw [hcols, List.map_id]

/-- Witness for C9 at the concrete store. -/
theorem C9_normalize_no_drop_witness :
    (normalize_per_cell 0 2 cDz).X.length = cDz.X.length ∧
    (normalize_per_cell 0 2 cDz).obs = cDz.obs ∧
    (normalize_per_cell 0 2 cDz).counts = cDz.counts := by
  have h := C9_normalize_no_drop cDz 2 (by decide) (by decide) (by decide)
    (by decide) (by decide) (by decide) (by decide) (by decide) (by decide)
    (by decide) (by decide)
  exact ⟨h.1, h.2.2.1, h.2.2.2.2.1⟩

/-! ## Shape lemmas -/

theorem mkFull_matDims (n M : ℕ) : matDims (mkFull n M) n M := by
  constructor
  · simp [mkFull]
  · intro row hrow
    rw [List.eq_of_mem_replicate hrow]
    simp

theorem matDims_nil (M : ℕ) : matDims [] 0 M := by
  constructor
  · rfl
  · intro row hrow
    simp at hrow

theorem ncols_of_matDims (m : Mat) (n M : ℕ) (h : matDims m n M)
    (hn : 0 < n) : ncols m = M := by
  rcases h with ⟨hl, hrow⟩
  cases m with
  | nil => subst hl; simp at hn
  | cons row rest => exact hrow row (List.mem_cons_self _ _)

theorem mkFull_shape_of (m : Mat) (n M : ℕ) (h : matDims m n M) :
    matDims (mkFull (nrows m) (ncols m)) n M := by
  rcases Nat.eq_zero_or_pos n with hn | hn
  · subst hn
    have hm : m = [] := List.length_eq_zero.mp h.1
    subst hm
    exact matDims_nil M
  · rw [show nrows m = n from h.1, ncols_of_matDims m n M h hn]
    exact mkFull_matDims n M

theorem maskFilter_matDims (keep : List Bool) (m : Mat) (n M : ℕ)
    (h : matDims m n M) (hk : keep.length = n) :
    matDims (maskFilter keep m) (countTrue keep) M := by
  constructor
  · exact maskFilter_length keep m (by rw [h.1, hk])
  · intro row hrow
    exact h.2 row (maskFilter_mem keep m row hrow)

theorem zipWith2D_matDims (f : FV → FV → FV) (A B : Mat) (n M : ℕ)
    (hA : matDims A n M) (hB : matDims B n M) :
    matDims (zipWith2D f A B) n M := by
  constructor
  · unfold zipWith2D
    rw [List.length_zipWith, hA.1, hB.1, Nat.min_self]
  · intro row hrow
    unfold zipWith2D at hrow
    rcases List.mem_iff_get.mp hrow with ⟨i, hi⟩
    rw [List.get_eq_getElem, List.getElem_zipWith] at hi
    have hiA : (i : ℕ) < A.length := by
      have := i.2
      simp only [List.length_zipWith] at this
      omega
    have hiB : (i : ℕ) < B.length := by
      have := i.2
      simp only [List.length_zipWith] at this
      omega
    rw [← hi, List.length_zipWith,
      hA.2 _ (List.getElem_mem hiA), hB.2 _ (List.getElem_mem hiB),
      Nat.min_self]

theorem maskedAssign_matDims (ms : List Bool) (ts ss u : Mat) (n M : ℕ)
    (ht : matDims ts n M) (hs : ∀ row ∈ ss, row.length = M)
    (h : maskedAssign ms ts ss = some u) : matDims u n M := by
  constructor
  · rw [(maskedAssign_some ms ts ss u h).1, ht.1]
  · intro row hrow
    rcases maskedAssign_mem ms ts ss u h row hrow with hm | hm
    · exact ht.2 row hm
    · exact hs row hm

theorem normRow_length (after : ℚ) (row : List FV) :
    (normRow after row).length = row.length := by
  unfold normRow
  cases FV.sum row with
  | nan => simp
  | val t =>
    by_cases ht : t = 0
    · simp [ht]
    · simp [ht]

theorem colSums_length (M : ℕ) (m : Mat) (h : ∀ row ∈ m, row.length = M) :
    (colSums M m).length = M := by
  induction m with
  | nil => simp [colSums]
  | cons row rest ih =>
    show (List.zipWith FV.add row (colSums M rest)).length = M
    rw [List.length_zipWith, h row (List.mem_cons_self _ _),
      ih (fun r hr => h r (List.mem_cons_of_mem _ hr)), Nat.min_self]

theorem mapMaskFilter_matDims (keep : List Bool) (m : Mat) (n M : ℕ)
    (h : matDims m n M) (hk : keep.length = M) :
    matDims (m.map (maskFilter keep)) n (countTrue keep) := by
  constructor
  · rw [List.length_map, h.1]
  · intro row hrow
    rcases List.mem_map.mp hrow with ⟨orig, horig, hrow⟩
    rw [← hrow]
    exact maskFilter_length keep orig (by rw [h.2 orig horig, hk])

/-! ## Obs-table shape lemmas -/

theorem obsLen_setCol (t : ObsTable) (name : String) (vals : List ℚ) (n : ℕ)
    (h : obsLen t n) (hv : vals.length = n) :
    obsLen (setCol t name vals) n := by
  refine ⟨h.1, h.2.1, ?_⟩
  intro p hp
  unfold setCol at hp
  simp only [List.mem_append] at hp
  rcases hp with hp | hp
  · exact h.2.2 p (List.mem_filter.mp hp).1
  · rw [List.mem_singleton] at hp
    subst hp
    exact hv

theorem lookup_mem (l : List (String × List ℚ)) (key : String) (v : List ℚ) :
    l.lookup key = some v → ∃ k, (k, v) ∈ l := by
  induction l with
  | nil => intro h; simp [List.lookup] at h
  | cons p rest ih =>
    obtain ⟨k, w⟩ := p
    intro h
    by_cases hk : key = k
    · subst hk
      rw [lookup_cons_self] at h
      cases h
      exact ⟨key, List.mem_cons_self _ _⟩
    · rw [lookup_cons_ne key k w rest hk] at h
      rcases ih h with ⟨k2, hk2⟩
      exact ⟨k2, List.mem_cons_of_mem _ hk2⟩

theorem lookup_length (t : ObsTable) (n : ℕ) (key : String) (v : List ℚ)
    (h : obsLen t n) (hl : t.numCols.lookup key = some v) : v.length = n := by
  rcases lookup_mem t.numCols key v hl with ⟨k, hk⟩
  exact h.2.2 (k, v) hk

theorem obsLen_filterRows (keep : List Bool) (d : InfData) (n : ℕ)
    (h : obsLen d.obs n) (hk : keep.length = n) :
    obsLen (filterRows keep d).obs (countTrue keep) := by
  refine ⟨maskFilter_length keep d.obs.names (by rw [h.1, hk]),
    maskFilter_length keep d.obs.gene (by rw [h.2.1, hk]), ?_⟩
  intro p hp
  rcases List.mem_map.mp hp with ⟨q, hq, hpq⟩
  rw [← hpq]
  exact maskFilter_length keep q.2 (by rw [h.2.2 q hq, hk])

/-! ## Shape propagation through the pipeline steps -/

theorem mapNormRow_matDims (after : ℚ) (m : Mat) (n M : ℕ)
    (h : matDims m n M) : matDims (m.map (normRow after)) n M := by
  constructor
  · rw [List.length_map, h.1]
  · intro row hrow
    rcases List.mem_map.mp hrow with ⟨orig, horig, hrow⟩
    rw [← hrow, normRow_length]
    exact h.2 orig horig

theorem step1_shape (a : AllData) (d1 : InfData) (n M : ℕ)
    (ha : allShape a n M) (h : step1 a = Except.ok d1) : shape1 d1 n M := by
  have hobs1 : obsLen (step1Obs a) n := by
    unfold step1Obs
    exact obsLen_setCol _ _ _ _ (obsLen_setCol _ _ _ _ (obsLen_setCol _ _ _ _
      (obsLen_setCol _ _ _ _ ha.2.2.1 ha.2.2.2.2.1) ha.2.2.2.2.2.1)
      ha.2.2.2.2.2.2.1) ha.2.2.2.2.2.2.2
  unfold step1 at h
  cases h1 : (step1Obs a).numCols.lookup
      ("program_" ++ a.rapa_program ++ "_time") with
  | none => rw [h1] at h; exact absurd h (by simp)
  | some rc =>
    rw [h1] at h
    cases h2 : (step1Obs a).numCols.lookup
        ("program_" ++ a.cell_cycle_program ++ "_time") with
    | none => rw [h2] at h; exact absurd h (by simp)
    | some cc =>
      rw [h2] at h
      simp only [Except.ok.injEq] at h
      subst h
      refine ⟨⟨ha.1, ?_, ha.2.2.2.1⟩, ha.2.1⟩
      exact obsLen_setCol _ _ _ _
        (obsLen_setCol _ _ _ _ hobs1
          (lookup_length (step1Obs a) n _ rc hobs1 h1))
        (lookup_length (step1Obs a) n _ cc hobs1 h2)

theorem filterRows_shape3 (keep : List Bool) (d : InfData) (n M : ℕ)
    (h : shape3 d n M) (hk : keep.length = n) :
    shape3 (filterRows keep d) (countTrue keep) M := by
  exact ⟨⟨⟨maskFilter_matDims keep d.X n M h.1.1.1 hk,
      obsLen_filterRows keep d n h.1.1.2.1 hk, h.1.1.2.2⟩,
    maskFilter_matDims keep d.decay_constants n M h.1.2 hk⟩,
    maskFilter_matDims keep d.counts n M h.2.1 hk,
    maskFilter_matDims keep d.rapamycin_velocity n M h.2.2.1 hk,
    maskFilter_matDims keep d.cell_cycle_velocity n M h.2.2.2.1 hk,
    maskFilter_matDims keep d.denoised n M h.2.2.2.2 hk⟩

theorem step3_shape (d : InfData) (after : ℚ) (n M : ℕ)
    (h : shape1 d n M) :
    shape3 (step3 after d)
      (countTrue (d.X.map (fun row => fvGE (FV.sum row) 0))) M := by
  have hkl : (d.X.map (fun row => fvGE (FV.sum row) 0)).length = n := by
    rw [List.length_map, h.1.1.1]
  have hXf : matDims
      (maskFilter (d.X.map (fun row => fvGE (FV.sum row) 0)) d.X)
      (countTrue (d.X.map (fun row => fvGE (FV.sum row) 0))) M :=
    maskFilter_matDims _ d.X n M h.1.1 hkl
  have hX : matDims (step3 after d).X
      (countTrue (d.X.map (fun row => fvGE (FV.sum row) 0))) M := by
    show matDims
      ((maskFilter (d.X.map (fun row => fvGE (FV.sum row) 0)) d.X).map
        (normRow after)) _ M
    exact mapNormRow_matDims after _ _ M hXf
  have hfull : matDims (mkFull (nrows (step3 after d).X)
      (ncols (step3 after d).X))
      (countTrue (d.X.map (fun row => fvGE (FV.sum row) 0))) M :=
    mkFull_shape_of _ _ M hX
  refine ⟨⟨⟨hX, ?_, h.1.2.2⟩, ?_⟩, ?_, hfull, hfull, hfull⟩
  · show obsLen (filterRows (d.X.map (fun row => fvGE (FV.sum row) 0))
      { d with counts := d.X }).obs _
    exact obsLen_filterRows _ _ n h.1.2.1 hkl
  · show matDims (maskFilter (d.X.map (fun row => fvGE (FV.sum row) 0))
      d.decay_constants) _ M
    exact maskFilter_matDims _ _ n M h.2 hkl
  · show matDims (maskFilter (d.X.map (fun row => fvGE (FV.sum row) 0))
      d.X) _ M
    exact hXf

theorem step4_shape :
    ∀ (expts : List (ExptProduct × DenoisedProduct)) (d d' : InfData)
      (n M : ℕ), shape3 d n M → (∀ e ∈ expts, exptShape M e) →
      step4 expts d = some d' → shape3 d' n M := by
  intro expts
  induction expts with
  | nil =>
    intro d d' n M h _ hrun
    simp only [step4, Option.some.injEq] at hrun
    subst hrun
    exact h
  | cons e rest ih =>
    intro d d' n M h he hrun
    simp only [step4] at hrun
    cases h1 : mergeExperiment d e.1 e.2 with
    | none => rw [h1] at hrun; exact absurd hrun (by simp)
    | some dmid =>
      rw [h1] at hrun
      rcases mergeExperiment_eq d e.1 e.2 dmid h1 with
        ⟨den, rv, cc, ha1, ha2, ha3, hd1⟩
      have hes := he e (List.mem_cons_self _ _)
      have hmid : shape3 dmid n M := by
        subst hd1
        exact ⟨h.1, h.2.1,
          maskedAssign_matDims _ _ _ rv n M h.2.2.1 hes.1 ha2,
          maskedAssign_matDims _ _ _ cc n M h.2.2.2.1 hes.2.1 ha3,
          maskedAssign_matDims _ _ _ den n M h.2.2.2.2 hes.2.2 ha1⟩
      exact ih dmid d' n M hmid
        (fun f hf => he f (List.mem_cons_of_mem _ hf)) hrun

theorem step5_shape (d : InfData) (n M : ℕ) (h : shape3 d n M) :
    shape3 (step5 d)
      (countTrue (d.obs.gene.map (fun g => g = "WT"))) M := by
  unfold step5
  exact filterRows_shape3 _ d n M h (by rw [List.length_map, h.1.1.2.1.2.1])

theorem step6_shape (d : InfData) (n M : ℕ) (h : shape3 d n M) :
    shape6 (step6 d) n M := by
  have hprod : matDims (zipWith2D FV.mul d.decay_constants d.denoised) n M :=
    zipWith2D_matDims FV.mul _ _ n M h.1.2 h.2.2.2.2
  exact ⟨h,
    zipWith2D_matDims FV.add _ _ n M h.2.2.1 hprod,
    zipWith2D_matDims FV.add _ _ n M h.2.2.2.1 hprod⟩

theorem step7_keep_all_of_nil (d : InfData) (hX : d.X = []) :
    ((colSums (ncols d.X) d.X).map (fun s => fvGT s 0)).all
      (fun b => b) = true := by
  rw [hX]
  rfl

theorem step7_shape (d : InfData) (n M : ℕ) (h : shape6 d n M) :
    ∃ M2, shape6 (step7 d) n M2 := by
  unfold step7
  by_cases hall : ((colSums (ncols d.X) d.X).map (fun s => fvGT s 0)).all
      (fun b => b) = true
  · rw [if_pos hall]
    exact ⟨M, h⟩
  · rw [if_neg hall]
    have hn : 0 < n := by
      rcases Nat.eq_zero_or_pos n with hn0 | hn0
      · exfalso
        apply hall
        apply step7_keep_all_of_nil
        exact List.length_eq_zero.mp (by rw [h.1.1.1.1.1, hn0])
      · exact hn0
    have hM : ncols d.X = M := ncols_of_matDims d.X n M h.1.1.1.1 hn
    have hkl : ((colSums (ncols d.X) d.X).map (fun s => fvGT s 0)).length
        = M := by
      rw [List.length_map, hM, colSums_length M d.X h.1.1.1.1.2]
    refine ⟨countTrue ((colSums (ncols d.X) d.X).map (fun s => fvGT s 0)),
      ⟨⟨⟨?_, ?_, ?_⟩, ?_⟩, ?_, ?_, ?_, ?_⟩, ?_, ?_⟩
    · exact mapMaskFilter_matDims _ d.X n M h.1.1.1.1 hkl
    · exact h.1.1.1.2.1
    · show (maskFilter _ d.var).length = _
      exact maskFilter_length _ d.var (by rw [h.1.1.1.2.2, hkl])
    · exact mapMaskFilter_matDims _ d.decay_constants n M h.1.1.2 hkl
    · exact mapMaskFilter_matDims _ d.counts n M h.1.2.1 hkl
    · exact mapMaskFilter_matDims _ d.rapamycin_velocity n M h.1.2.2.1 hkl
    · exact mapMaskFilter_matDims _ d.cell_cycle_velocity n M h.1.2.2.2.1 hkl
    · exact mapMaskFilter_matDims _ d.denoised n M h.1.2.2.2.2 hkl
    · exact mapMaskFilter_matDims _ d.rapamycin_transcription n M h.2.1 hkl
    · exact mapMaskFilter_matDims _ d.cell_cycle_transcription n M h.2.2 hkl

/-! ## The transcription relation and its transport -/

theorem fv_add_nan_left (y : FV) : FV.add FV.nan y = FV.nan := by
  cases y <;> rfl

theorem fv_add_nan_right (x : FV) : FV.add x FV.nan = FV.nan := by
  cases x <;> rfl

theorem fv_mul_nan_left (y : FV) : FV.mul FV.nan y = FV.nan := by
  cases y <;> rfl

theorem fv_mul_nan_right (x : FV) : FV.mul x FV.nan = FV.nan := by
  cases x <;> rfl

theorem getD_zipWith_fv (f : FV → FV → FV)
    (hnl : ∀ y, f FV.nan y = FV.nan) (hnr : ∀ x, f x FV.nan = FV.nan) :
    ∀ (xs ys : List FV) (c : ℕ),
      (List.zipWith f xs ys).getD c FV.nan =
        f (xs.getD c FV.nan) (ys.getD c FV.nan) := by
  intro xs
  induction xs with
  | nil => intro ys c; simp [hnl]
  | cons x xs ih =>
    intro ys c
    cases ys with
    | nil => simp [hnr]
    | cons y ys =>
      cases c with
      | zero => rfl
      | succ c =>
        simp only [List.zipWith_cons_cons, List.getD_cons_succ]
        exact ih ys c

theorem mget_zipWith2D (f : FV → FV → FV)
    (hnl : ∀ y, f FV.nan y = FV.nan) (hnr : ∀ x, f x FV.nan = FV.nan) :
    ∀ (A B : Mat) (r c : ℕ),
      mget (zipWith2D f A B) r c = f (mget A r c) (mget B r c) := by
  intro A
  induction A with
  | nil =>
    intro B r c
    unfold mget zipWith2D
    simp [hnl]
  | cons a A ih =>
    intro B r c
    cases B with
    | nil =>
      unfold mget zipWith2D
      simp [hnr]
    | cons b B =>
      cases r with
      | zero =>
        show (List.zipWith f a b).getD c FV.nan =
          f (a.getD c FV.nan) (b.getD c FV.nan)
        exact getD_zipWith_fv f hnl hnr a b c
      | succ r =>
        show mget (zipWith2D f A B) r c = f (mget A r c) (mget B r c)
        exact ih B r c

/-- Step 6 establishes the transcription relation on both derived layers,
with no side condition. -/
theorem step6_transRel (d : InfData) :
    transRel (step6 d).rapamycin_transcription (step6 d).rapamycin_velocity
      (step6 d).decay_constants (step6 d).denoised ∧
    transRel (step6 d).cell_cycle_transcription (step6 d).cell_cycle_velocity
      (step6 d).decay_constants (step6 d).denoised := by
  constructor
  · intro r c
    show mget (zipWith2D FV.add d.rapamycin_velocity
        (zipWith2D FV.mul d.decay_constants d.denoised)) r c =
      FV.add (mget d.rapamycin_velocity r c)
        (FV.mul (mget d.decay_constants r c) (mget d.denoised r c))
    rw [mget_zipWith2D FV.add fv_add_nan_left fv_add_nan_right,
      mget_zipWith2D FV.mul fv_mul_nan_left fv_mul_nan_right]
  · intro r c
    show mget (zipWith2D FV.add d.cell_cycle_velocity
        (zipWith2D FV.mul d.decay_constants d.denoised)) r c =
      FV.add (mget d.cell_cycle_velocity r c)
        (FV.mul (mget d.decay_constants r c) (mget d.denoised r c))
    rw [mget_zipWith2D FV.add fv_add_nan_left fv_add_nan_right,
      mget_zipWith2D FV.mul fv_mul_nan_left fv_mul_nan_right]

theorem mget_mapMaskFilter (keep : List Bool) (m : Mat) (r c : ℕ)
    (hrow : ∀ row ∈ m, row.length ≤ keep.length) :
    mget (m.map (maskFilter keep)) r c = mget m r (trueIdx keep c) := by
  unfold mget
  have hr : (m.map (maskFilter keep)).getD r [] =
      maskFilter keep (m.getD r []) := by
    by_cases hlt : r < m.length
    · rw [List.getD_eq_getElem _ _ (by simpa using hlt), List.getElem_map,
        List.getD_eq_getElem _ _ hlt]
    · rw [List.getD_eq_default _ _ (by simpa using not_lt.mp hlt),
        List.getD_eq_default _ _ (not_lt.mp hlt), maskFilter_nil]
  rw [hr]
  apply maskFilter_getD
  by_cases hlt : r < m.length
  · exact hrow _ (by rw [List.getD_eq_getElem _ _ hlt]; exact List.getElem_mem hlt)
  · rw [List.getD_eq_default _ _ (not_lt.mp hlt)]
    simp

theorem transRel_filterCols (keep : List Bool) (T V K D : Mat)
    (h : transRel T V K D)
    (hT : ∀ row ∈ T, row.length ≤ keep.length)
    (hV : ∀ row ∈ V, row.length ≤ keep.length)
    (hK : ∀ row ∈ K, row.length ≤ keep.length)
    (hD : ∀ row ∈ D, row.length ≤ keep.length) :
    transRel (T.map (maskFilter keep)) (V.map (maskFilter keep))
      (K.map (maskFilter keep)) (D.map (maskFilter keep)) := by
  intro r c
  rw [mget_mapMaskFilter keep T r c hT, mget_mapMaskFilter keep V r c hV,
    mget_mapMaskFilter keep K r c hK, mget_mapMaskFilter keep D r c hD]
  exact h r (trueIdx keep c)

/-- Step 7 preserves the transcription relation on both derived layers. -/
theorem step7_transRel (d : InfData) (n M : ℕ) (h6 : shape6 d n M) :
    (transRel d.rapamycin_transcription d.rapamycin_velocity
        d.decay_constants d.denoised →
      transRel (step7 d).rapamycin_transcription
        (step7 d).rapamycin_velocity (step7 d).decay_constants
        (step7 d).denoised) ∧
    (transRel d.cell_cycle_transcription d.cell_cycle_velocity
        d.decay_constants d.denoised →
      transRel (step7 d).cell_cycle_transcription
        (step7 d).cell_cycle_velocity (step7 d).decay_constants
        (step7 d).denoised) := by
  unfold step7
  by_cases hall : ((colSums (ncols d.X) d.X).map (fun s => fvGT s 0)).all
      (fun b => b) = true
  · rw [if_pos hall]
    exact ⟨id, id⟩
  · rw [if_neg hall]
    have hn : 0 < n := by
      rcases Nat.eq_zero_or_pos n with hn0 | hn0
      · exfalso
        apply hall
        apply step7_keep_all_of_nil
        exact List.length_eq_zero.mp (by rw [h6.1.1.1.1.1, hn0])
      · exact hn0
    have hM : ncols d.X = M := ncols_of_matDims d.X n M h6.1.1.1.1 hn
    have hkl : ((colSums (ncols d.X) d.X).map (fun s => fvGT s 0)).length
        = M := by
      rw [List.length_map, hM, colSums_length M d.X h6.1.1.1.1.2]
    have hle : ∀ (m : Mat), matDims m n M → ∀ row ∈ m,
        row.length ≤ ((colSums (ncols d.X) d.X).map
          (fun s => fvGT s 0)).length := by
      intro m hm row hrow
      rw [hkl, hm.2 row hrow]
    constructor
    · intro h
      exact transRel_filterCols _ _ _ _ _ h
        (hle _ h6.2.1) (hle _ h6.1.2.2.1) (hle _ h6.1.1.2) (hle _ h6.1.2.2.2.2)
    · intro h
      exact transRel_filterCols _ _ _ _ _ h
        (hle _ h6.2.2) (hle _ h6.1.2.2.2.1) (hle _ h6.1.1.2) (hle _ h6.1.2.2.2.2)

/-! ## The concrete end-to-end run, step by step -/

theorem eS1_run : step1 eAll = Except.ok eS1 := rfl

set_option maxHeartbeats 1000000 in
theorem eS3_run : step3 2 eS1 = eS3 := by
  norm_num [step3, normalize_per_cell, filterRows, eS1, eS3,
    FV.sum, List.foldr, FV.add, FV.mul, fvGE, List.map, mkFull, nrows, ncols,
    maskFilter_cons_true, maskFilter_cons_false, maskFilter_nil,
    maskFilter_nil_keep, normRow]

theorem eD4_run : step4 [(eDD, eDN)] eS3 = some eD4 := by decide

theorem eD5_run : step5 eD4 = eD4 := by decide

theorem eD6_run : step6 eD4 = eFinal := by
  norm_num [step6, zipWith2D, List.zipWith, FV.add, FV.mul, eD4, eFinal,
    eS3, eS1]

theorem eD7_run : step7 eFinal = eFinal := by
  norm_num [step7, colSums, ncols, fvGT, FV.add, List.foldr, eFinal, eD4,
    eS3, eS1, List.all]

theorem package_run : package eAll [(eDD, eDN)] 2 = Except.ok eFinal := by
  unfold package
  rw [eS1_run]
  show (match step4 [(eDD, eDN)] (step3 2 eS1) with
    | none => Except.error Err.ShapeMismatch
    | some d4 => Except.ok (step7 (step6 (step5 d4)))) = Except.ok eFinal
  rw [eS3_run, eD4_run]
  show Except.ok (step7 (step6 (step5 eD4))) = Except.ok eFinal
  rw [eD5_run, eD6_run, eD7_run]

/-! ## Decomposing a successful pipeline run -/

theorem package_steps (a : AllData) (expts : List (ExptProduct × DenoisedProduct))
    (after : ℚ) (final : InfData)
    (hrun : package a expts after = Except.ok final) :
    ∃ d1 d4, step1 a = Except.ok d1 ∧
      step4 expts (step3 after d1) = some d4 ∧
      final = step7 (step6 (step5 d4)) := by
  unfold package at hrun
  cases h1 : step1 a with
  | error e => rw [h1] at hrun; simp at hrun
  | ok d1 =>
    rw [h1] at hrun
    simp only [] at hrun
    cases h4 : step4 expts (step3 after d1) with
    | none => rw [h4] at hrun; simp at hrun
    | some d4 =>
      rw [h4] at hrun
      simp only [Except.ok.injEq] at hrun
      exact ⟨d1, d4, rfl, h4, hrun.symm⟩

/-- On a successful run with well-shaped inputs, the final store satisfies
the transcription relation on both derived layers. -/
theorem package_transRel (a : AllData)
    (expts : List (ExptProduct × DenoisedProduct)) (after : ℚ)
    (final : InfData) (n M : ℕ)
    (ha : allShape a n M) (he : ∀ e ∈ expts, exptShape M e)
    (hrun : package a expts after = Except.ok final) :
    transRel final.rapamycin_transcription final.rapamycin_velocity
      final.decay_constants final.denoised ∧
    transRel final.cell_cycle_transcription final.cell_cycle_velocity
      final.decay_constants final.denoised := by
  rcases package_steps a expts after final hrun with ⟨d1, d4, h1, h4, hfin⟩
  have hs1 := step1_shape a d1 n M ha h1
  have hs3 := step3_shape d1 after n M hs1
  have hs4 := step4_shape expts (step3 after d1) d4 _ M hs3 he h4
  have hs5 := step5_shape d4 _ M hs4
  have hs6 := step6_shape (step5 d4) _ M hs5
  have ht6 := step6_transRel (step5 d4)
  have ht7 := step7_transRel (step6 (step5 d4)) _ M hs6
  subst hfin
  exact ⟨ht7.1 ht6.1, ht7.2 ht6.2⟩

theorem trans_nan_prop (x k dv : FV)
    (h : FV.isNaN x = true ∨ FV.isNaN k = true ∨ FV.isNaN dv = true) :
    FV.isNaN (FV.add x (FV.mul k dv)) = true := by
  cases x <;> cases k <;> cases dv <;>
    simp_all [FV.isNaN, FV.add, FV.mul]

theorem eAll_shape : allShape eAll 1 1 := by
  unfold allShape obsLen matDims
  decide

theorem eExpt_shape : ∀ e ∈ [(eDD, eDN)], exptShape 1 e := by
  intro e he
  rw [List.mem_singleton] at he
  subst he
  unfold exptShape
  decide

/-! ## Claim C2 -/

/-- C2: in the final store, each transcription cell equals the corresponding
velocity cell plus decay times denoised, element-wise, and not-a-number
propagates: if any of the three operands at a cell is not-a-number, the
transcription cell is not-a-number, never silently zero-filled. -/
theorem C2_transcription_derivation (a : AllData)
    (expts : List (ExptProduct × DenoisedProduct)) (after : ℚ)
    (final : InfData) (n M : ℕ)
    (ha : allShape a n M) (he : ∀ e ∈ expts, exptShape M e)
    (hrun : package a expts after = Except.ok final) :
    (∀ r c,
      mget final.rapamycin_transcription r c =
        FV.add (mget final.rapamycin_velocity r c)
          (FV.mul (mget final.decay_constants r c)
            (mget final.denoised r c)) ∧
      mget final.cell_cycle_transcription r c =
        FV.add (mget final.cell_cycle_velocity r c)
          (FV.mul (mget final.decay_constants r c)
            (mget final.denoised r c))) ∧
    (∀ r c,
      (FV.isNaN (mget final.rapamycin_velocity r c) = true ∨
       FV.isNaN (mget final.decay_constants r c) = true ∨
       FV.isNaN (mget final.denoised r c) = true) →
      FV.isNaN (mget final.rapamycin_transcription r c) = true) ∧
    (∀ r c,
      (FV.isNaN (mget final.cell_cycle_velocity r c) = true ∨
       FV.isNaN (mget final.decay_constants r c) = true ∨
       FV.isNaN (mget final.denoised r c) = true) →
      FV.isNaN (mget final.cell_cycle_transcription r c) = true) := by
  have h := package_transRel a expts after final n M ha he hrun
  refine ⟨fun r c => ⟨h.1 r c, h.2 r c⟩, fun r c hnan => ?_,
    fun r c hnan => ?_⟩
  · rw [h.1 r c]
    exact trans_nan_prop _ _ _ hnan
  · rw [h.2 r c]
    exact trans_nan_prop _ _ _ hnan

/-- Witness for C2 on the end-to-end run. -/
theorem C2_transcription_derivation_witness :
    mget eFinal.rapamycin_transcription 0 0 =
      FV.add (mget eFinal.rapamycin_velocity 0 0)
        (FV.mul (mget eFinal.decay_constants 0 0)
          (mget eFinal.denoised 0 0)) :=
  ((C2_transcription_derivation eAll [(eDD, eDN)] 2 eFinal 1 1
    eAll_shape eExpt_shape package_run).1 0 0).1

/-! ## Claim C8 -/

/-- C8: both derived transcription layers add the identical shared term
`decay_constants * denoised` to their velocity layer, so wherever all
operands are finite the two transcription-minus-velocity differences agree
(and equal the shared decay term). -/
theorem C8_shared_decay_term (a : AllData)
    (expts : List (ExptProduct × DenoisedProduct)) (after : ℚ)
    (final : InfData) (n M : ℕ)
    (ha : allShape a n M) (he : ∀ e ∈ expts, exptShape M e)
    (hrun : package a expts after = Except.ok final)
    (r c : ℕ) (k dv v1 v2 : ℚ)
    (hk : mget final.decay_constants r c = FV.val k)
    (hd : mget final.denoised r c = FV.val dv)
    (h1 : mget final.rapamycin_velocity r c = FV.val v1)
    (h2 : mget final.cell_cycle_velocity r c = FV.val v2) :
    FV.sub (mget final.rapamycin_transcription r c)
        (mget final.rapamycin_velocity r c) =
      FV.sub (mget final.cell_cycle_transcription r c)
        (mget final.cell_cycle_velocity r c) ∧
    FV.sub (mget final.rapamycin_transcription r c)
        (mget final.rapamycin_velocity r c) = FV.val (k * dv) := by
  have h := package_transRel a expts after final n M ha he hrun
  rw [h.1 r c, h.2 r c, hk, hd, h1, h2]
  constructor
  · show FV.val (v1 + k * dv - v1) = FV.val (v2 + k * dv - v2)
    exact congrArg FV.val (by ring)
  · show FV.val (v1 + k * dv - v1) = FV.val (k * dv)
    exact congrArg FV.val (by ring)

/-- Witness for C8 on the end-to-end run. -/
theorem C8_shared_decay_term_witness :
    FV.sub (mget eFinal.rapamycin_transcription 0 0)
        (mget eFinal.rapamycin_velocity 0 0) =
      FV.sub (mget eFinal.cell_cycle_transcription 0 0)
        (mget eFinal.cell_cycle_velocity 0 0) :=
  (C8_shared_decay_term eAll [(eDD, eDN)] 2 eFinal 1 1 eAll_shape eExpt_shape
    package_run 0 0 3 11 5 7 (by decide) (by decide) (by decide)
    (by decide)).1

/-! ## Claim C4 -/

/-- C4: at every pipeline stage, every layer existing at that stage has the
primary matrix's shape and the obs table is row-aligned: after Step 1 with
the source's dimensions, and through Steps 3–7 with the stage's (possibly
reduced) row and column counts. -/
theorem C4_shape_invariant (a : AllData)
    (expts : List (ExptProduct × DenoisedProduct)) (after : ℚ)
    (d1 d4 : InfData) (n M : ℕ)
    (ha : allShape a n M) (he : ∀ e ∈ expts, exptShape M e)
    (h1 : step1 a = Except.ok d1)
    (h4 : step4 expts (step3 after d1) = some d4) :
    shape1 d1 n M ∧
    ∃ n2, shape3 (step3 after d1) n2 M ∧ shape3 d4 n2 M ∧
      ∃ n3, shape3 (step5 d4) n3 M ∧ shape6 (step6 (step5 d4)) n3 M ∧
        ∃ M2, shape6 (step7 (step6 (step5 d4))) n3 M2 := by
  have hs1 := step1_shape a d1 n M ha h1
  have hs3 := step3_shape d1 after n M hs1
  have hs4 := step4_shape expts (step3 after d1) d4 _ M hs3 he h4
  have hs5 := step5_shape d4 _ M hs4
  have hs6 := step6_shape (step5 d4) _ M hs5
  have hs7 := step7_shape (step6 (step5 d4)) _ M hs6
  exact ⟨hs1, _, hs3, hs4, _, hs5, hs6, hs7⟩

/-- Witness for C4 on the end-to-end run. -/
theorem C4_shape_invariant_witness : shape1 eS1 1 1 :=
  (C4_shape_invariant eAll [(eDD, eDN)] 2 eS1 eD4 1 1 eAll_shape eExpt_shape
    eS1_run (by rw [eS3_run]; exact eD4_run)).1

/-! ## Claim C6 -/

/-- Column sums of a column-trimmed matrix are the trimmed column sums. -/
theorem colSums_mapMaskFilter (keep : List Bool) (m : Mat)
    (h : ∀ row ∈ m, row.length = keep.length) :
    colSums (countTrue keep) (m.map (maskFilter keep)) =
      maskFilter keep (colSums keep.length m) := by
  induction m with
  | nil =>
    show List.replicate (countTrue keep) (FV.val 0) =
      maskFilter keep (List.replicate keep.length (FV.val 0))
    rw [maskFilter_replicate]
  | cons row rest ih =>
    show List.zipWith FV.add (maskFilter keep row)
        (colSums (countTrue keep) (rest.map (maskFilter keep))) =
      maskFilter keep (List.zipWith FV.add row (colSums keep.length rest))
    rw [ih (fun r hr => h r (List.mem_cons_of_mem _ hr)), maskFilter_zipWith]

theorem step7_eq_self_of_all (d2 : InfData)
    (h : ((colSums (ncols d2.X) d2.X).map (fun s => fvGT s 0)).all
      (fun b => b) = true) : step7 d2 = d2 := by
  unfold step7
  rw [if_pos h]

theorem fvGT_ne_zero (s : FV) (h : fvGT s 0 = true) : ¬ s = FV.val 0 := by
  cases s with
  | nan => simp [fvGT] at h
  | val q =>
    simp only [fvGT, decide_eq_true_eq] at h
    intro hc
    rw [FV.val.injEq] at hc
    subst hc
    exact lt_irrefl 0 h

/-- Elements selected by an all-true check are themselves checked. -/
theorem all_map_getD (S : List FV) (p : FV → Bool)
    (hall : (S.map p).all (fun b => b) = true) (j : ℕ) (hj : j < S.length) :
    p (S.getD j (FV.val 0)) = true := by
  have hmem : S.getD j (FV.val 0) ∈ S := by
    rw [List.getD_eq_getElem _ _ hj]
    exact List.getElem_mem hj
  exact List.all_eq_true.mp hall _ (List.mem_map_of_mem p hmem)

/-- C6: after the Step 7 feature trim, every retained feature has a nonzero
column-sum of the primary matrix over the retained rows, and applying the
trim a second time changes nothing. -/
theorem C6_feature_trim (d : InfData) (n M : ℕ) (hX : matDims d.X n M) :
    (∀ j, j < (colSums (ncols (step7 d).X) (step7 d).X).length →
      ¬ (colSums (ncols (step7 d).X) (step7 d).X).getD j (FV.val 0)
        = FV.val 0) ∧
    step7 (step7 d) = step7 d := by
  by_cases hall : ((colSums (ncols d.X) d.X).map (fun s => fvGT s 0)).all
      (fun b => b) = true
  · have hstep : step7 d = d := by
      unfold step7
      rw [if_pos hall]
    constructor
    · intro j hj
      rw [hstep] at hj ⊢
      exact fvGT_ne_zero _ (all_map_getD _ _ hall j hj)
    · rw [hstep, hstep]
  · have hstep : step7 d = filterCols
        ((colSums (ncols d.X) d.X).map (fun s => fvGT s 0)) d := by
      unfold step7
      rw [if_neg hall]
    have hn : 0 < n := by
      rcases Nat.eq_zero_or_pos n with hn0 | hn0
      · exact absurd (step7_keep_all_of_nil d
          (List.length_eq_zero.mp (by rw [hX.1, hn0]))) hall
      · exact hn0
    have hM : ncols d.X = M := ncols_of_matDims d.X n M hX hn
    have hkl : ((colSums (ncols d.X) d.X).map (fun s => fvGT s 0)).length
        = M := by
      rw [List.length_map, hM, colSums_length M d.X hX.2]
    have hd2 : matDims (step7 d).X n
        (countTrue ((colSums (ncols d.X) d.X).map (fun s => fvGT s 0))) := by
      rw [hstep]
      exact mapMaskFilter_matDims _ d.X n M hX hkl
    have hn2 : ncols (step7 d).X =
        countTrue ((colSums (ncols d.X) d.X).map (fun s => fvGT s 0)) :=
      ncols_of_matDims _ n _ hd2 hn
    have hrows : ∀ row ∈ d.X, row.length =
        ((colSums (ncols d.X) d.X).map (fun s => fvGT s 0)).length := by
      intro row hrow
      rw [hkl, hX.2 row hrow]
    have hS2 : colSums (ncols (step7 d).X) (step7 d).X =
        maskFilter ((colSums (ncols d.X) d.X).map (fun s => fvGT s 0))
          (colSums (ncols d.X) d.X) := by
      rw [hn2, hstep]
      show colSums (countTrue ((colSums (ncols d.X) d.X).map
          (fun s => fvGT s 0)))
        (d.X.map (maskFilter ((colSums (ncols d.X) d.X).map
          (fun s => fvGT s 0)))) = _
      rw [colSums_mapMaskFilter _ d.X hrows, hkl, hM]
    constructor
    · intro j hj
      rw [hS2] at hj ⊢
      have hmem : (maskFilter ((colSums (ncols d.X) d.X).map
            (fun s => fvGT s 0)) (colSums (ncols d.X) d.X)).getD j (FV.val 0)
          ∈ maskFilter ((colSums (ncols d.X) d.X).map (fun s => fvGT s 0))
            (colSums (ncols d.X) d.X) := by
        rw [List.getD_eq_getElem _ _ hj]
        exact List.getElem_mem hj
      exact fvGT_ne_zero _ (maskFilter_map_pred (fun s => fvGT s 0)
        (colSums (ncols d.X) d.X) _ hmem)
    · have hall2 : ((colSums (ncols (step7 d).X) (step7 d).X).map
          (fun s => fvGT s 0)).all (fun b => b) = true := by
        rw [hS2]
        apply List.all_eq_true.mpr
        intro b hb
        rcases List.mem_map.mp hb with ⟨y, hy, hbe⟩
        rw [← hbe]
        exact maskFilter_map_pred (fun s => fvGT s 0)
          (colSums (ncols d.X) d.X) _ hy
      exact step7_eq_self_of_all (step7 d) hall2

/-- Witness for C6: trimming the concrete store twice equals trimming once. -/
theorem C6_feature_trim_witness : step7 (step7 cDz) = step7 cDz :=
  (C6_feature_trim cDz 2 1 (by unfold matDims; decide)).2

end JTB
